import Mathlib

/-!
Verification of the Sheets-MySQL sync engine ("Superjoin-synced").

This file gives a shallow embedding, in Lean 4, of the pure decision logic
and configuration of the repository:

* the LWW conflict arbiter `resolveConflict` (src/ARCHITECTURE.md §4);
* the identifier sanitizer and column-name helpers
  (backend/src/utils/columnUtils.ts);
* the type inference / coercion engine (backend/src/utils/typeCoercion.ts);
* the schema registry operation `ensureColumnMapping`
  (backend/src/services/SchemaManager.ts);
* the row content hash `computeRowHash` (backend crypto utils);
* the BullMQ queue / worker configuration
  (backend/src/queues/{dbToSheetQueue,sheetToDbQueue}.ts,
   backend/src/queues/workers/dbToSheetWorker.ts);
* the DB→Sheet job processor `processJob`
  (backend/src/queues/workers/dbToSheetWorker.ts).

JavaScript builtins that the code calls (`JSON.stringify`, `parseFloat`,
`new Date(string)`, `String.prototype.trim/toLowerCase`, `Array.sort`,
Node `crypto` SHA-256, the BullMQ exponential backoff schedule) are not
repository code; they are modelled by executable Lean functions whose doc
comments state the modelling choices.  All definitions are structurally
recursive so that concrete instances evaluate with `decide` / `rfl`.
-/

namespace Synced

/-! ## Enumerations shared by the data model (backend/src/types, part_002) -/

/-- `ModifiedBy` — the `_last_modified_by` enum `'SHEET' | 'DATABASE' | 'SYSTEM'`. -/
inductive ModifiedBy
  | SHEET
  | DATABASE
  | SYSTEM
deriving DecidableEq, Repr

/-- `SyncStatus` — `'SYNCED' | 'PENDING' | 'CONFLICT' | 'ERROR'`. -/
inductive SyncStatus
  | SYNCED
  | PENDING
  | CONFLICT
  | ERROR
deriving DecidableEq, Repr

/-- `ColumnDataType` — `'TEXT' | 'NUMBER' | 'DATE' | 'BOOLEAN'`. -/
inductive ColumnDataType
  | TEXT
  | NUMBER
  | DATE
  | BOOLEAN
deriving DecidableEq, Repr

/-! ## LWW conflict arbiter (src/ARCHITECTURE.md, `resolveConflict`) -/

/-- Outcome of `resolveConflict`: `'APPLY' | 'SKIP' | 'CONFLICT'`. -/
inductive SyncDecision
  | APPLY
  | SKIP
  | CONFLICT
deriving DecidableEq, Repr

/-- The timestamp/origin metadata of the incoming change.  `timestamp` is the
millisecond epoch value `new Date(incoming.timestamp).getTime()`. -/
structure SyncPayloadMeta where
  timestamp : Int
  source : ModifiedBy
deriving DecidableEq, Repr

/-- The stored row metadata read by the arbiter: `_last_modified_at` (ms epoch)
and `_last_modified_by`. -/
structure SyncRecordMeta where
  lastModifiedAt : Int
  lastModifiedBy : ModifiedBy
deriving DecidableEq, Repr

/-- `resolveConflict` from src/ARCHITECTURE.md: same origin within the cooldown
window is an echo (SKIP); newer incoming timestamp APPLYs; older incoming
timestamp from a different origin CONFLICTs; everything else SKIPs. -/
def resolveConflict (cooldownMs : Int) (incoming : SyncPayloadMeta)
    (existing : SyncRecordMeta) : SyncDecision :=
  let incomingTs := incoming.timestamp
  let existingTs := existing.lastModifiedAt
  if incoming.source = existing.lastModifiedBy ∧ |incomingTs - existingTs| < cooldownMs then
    .SKIP
  else if incomingTs > existingTs then
    .APPLY
  else if incomingTs < existingTs ∧ incoming.source ≠ existing.lastModifiedBy then
    .CONFLICT
  else
    .SKIP

/-! ## Queue and worker configuration (backend/src/queues) -/

/-- BullMQ backoff kind (`type: 'exponential'` in both queue configs). -/
inductive BackoffKind
  | exponential
  | fixed
deriving DecidableEq, Repr

/-- BullMQ `backoff` options: kind and base delay in milliseconds. -/
structure BackoffSettings where
  kind : BackoffKind
  delay : Nat
deriving DecidableEq, Repr

/-- BullMQ `removeOnComplete` / `removeOnFail` retention policy: either a plain
count bound, or a count together with an age bound in seconds. -/
inductive KeepPolicy
  | keepCount (count : Nat)
  | keepCountAge (count age : Nat)
deriving DecidableEq, Repr

/-- BullMQ `defaultJobOptions` as configured by the two queue constructors. -/
structure DefaultJobOptions where
  attempts : Nat
  backoff : BackoffSettings
  removeOnComplete : KeepPolicy
  removeOnFail : KeepPolicy
deriving DecidableEq, Repr

/-- Worker options of `startDbToSheetWorker`
(backend/src/queues/workers/dbToSheetWorker.ts): `concurrency: 5`,
`limiter: { max: 50, duration: 60000 }`. -/
structure WorkerSettings where
  concurrency : Nat
  limiterMax : Nat
  limiterDuration : Nat
deriving DecidableEq, Repr

/-- The options object passed to `new Worker('db-to-sheet', processJob, …)`. -/
def dbToSheetWorkerSettings : WorkerSettings :=
  { concurrency := 5, limiterMax := 50, limiterDuration := 60000 }

/-- `defaultJobOptions` of `getDbToSheetQueue`
(backend/src/queues/dbToSheetQueue.ts): attempts 3, exponential backoff with
base delay 2000 ms, `removeOnComplete: { count: 1000, age: 86400 }`,
`removeOnFail: { count: 500 }`. -/
def dbToSheetQueueJobOptions : DefaultJobOptions :=
  { attempts := 3
    backoff := { kind := .exponential, delay := 2000 }
    removeOnComplete := .keepCountAge 1000 86400
    removeOnFail := .keepCount 500 }

/-- `defaultJobOptions` of `getSheetToDbQueue`
(backend/src/queues/sheetToDbQueue.ts): attempts 3, exponential backoff with
base delay 2000 ms, `removeOnComplete: 1000`, `removeOnFail: 2000`. -/
def sheetToDbQueueJobOptions : DefaultJobOptions :=
  { attempts := 3
    backoff := { kind := .exponential, delay := 2000 }
    removeOnComplete := .keepCount 1000
    removeOnFail := .keepCount 2000 }

/-- Modelled from the BullMQ builtin backoff strategy (not repository code):
for `type: 'exponential'` the delay before retry number `retryIndex + 1`
(i.e. after `attemptsMade = retryIndex + 1` failed attempts) is
`delay * 2 ^ retryIndex`; for `fixed` it is `delay`. -/
def bullBackoffDelay (b : BackoffSettings) (retryIndex : Nat) : Nat :=
  match b.kind with
  | .exponential => b.delay * 2 ^ retryIndex
  | .fixed => b.delay

/-! ## DB→Sheet job processor (backend/src/queues/workers/dbToSheetWorker.ts) -/

/-- Sync metadata of one row of a synced table that `processJob` touches:
`_sync_status` and `_synced_at`. -/
structure RowSyncMeta where
  syncStatus : SyncStatus
  syncedAt : Option Int
deriving DecidableEq, Repr

/-- The database state visible to `processJob`: the synced table's rows keyed
by `_sync_row_id`, and the `sync_audit_log` table (operation types only). -/
structure SyncDbState where
  rows : List (Nat × RowSyncMeta)
  auditLog : List String
deriving DecidableEq, Repr

/-- Result of the external call `googleSheetsService.updateSheetRow`, the one
fallible step of `processJob` (the surrounding `db.execute` calls are modelled
as succeeding). -/
inductive SheetWriteOutcome
  | ok
  | failed (msg : String)
deriving DecidableEq, Repr

/-- `UPDATE … WHERE _sync_row_id = rowId`: apply `f` to every row whose key
matches (SQL UPDATE touches all matching rows). -/
def updateRow (rows : List (Nat × RowSyncMeta)) (rowId : Nat)
    (f : RowSyncMeta → RowSyncMeta) : List (Nat × RowSyncMeta) :=
  rows.map (fun p => if p.1 = rowId then (p.1, f p.2) else p)

/-- `processJob` of backend/src/queues/workers/dbToSheetWorker.ts.  On a
successful sheet write, mark the row `SYNCED`, stamp `_synced_at = NOW()`, and
append a `DB_TO_SHEET` audit entry; on failure, mark the row `ERROR` and
re-throw the error (modelled as `Except.error`) to trigger the BullMQ retry. -/
def processJob (outcome : SheetWriteOutcome) (now : Int) (rowId : Nat)
    (st : SyncDbState) : SyncDbState × Except String Unit :=
  match outcome with
  | .ok =>
      let markSynced : RowSyncMeta → RowSyncMeta :=
        fun _ => { syncStatus := .SYNCED, syncedAt := some now }
      let st1 : SyncDbState := { st with rows := updateRow st.rows rowId markSynced }
      ({ st1 with auditLog := st1.auditLog ++ ["DB_TO_SHEET"] }, .ok ())
  | .failed msg =>
      let markError : RowSyncMeta → RowSyncMeta :=
        fun m => { m with syncStatus := .ERROR }
      ({ st with rows := updateRow st.rows rowId markError }, .error msg)

/-! ## Character-level string model

JavaScript strings are modelled as `List Char`.  The builtins used by the
repository (`trim`, `toLowerCase`, number→string conversion) are modelled for
the ASCII range, which is the range the sanitizer's character class
`[a-z0-9_]` and the numeric/boolean literals live in. -/

/-- Decimal digit test, `[0-9]`. -/
def isDigitChar (c : Char) : Bool :=
  48 ≤ c.toNat && c.toNat ≤ 57

/-- The sanitizer's identifier character class `[a-z0-9_]`. -/
def isIdentChar (c : Char) : Bool :=
  (97 ≤ c.toNat && c.toNat ≤ 122) || (48 ≤ c.toNat && c.toNat ≤ 57) || c == '_'

/-- Modelled from the builtin `String.prototype.trim` whitespace class,
restricted to the common ASCII whitespace characters. -/
def jsIsWs (c : Char) : Bool :=
  c == ' ' || c == '\t' || c == '\n' || c == '\r' || c == '\x0b' || c == '\x0c'

/-- Modelled from the builtin `String.prototype.toLowerCase`, restricted to
ASCII: map `A`–`Z` to `a`–`z`, leave everything else unchanged. -/
def jsToLower (c : Char) : Char :=
  if 65 ≤ c.toNat ∧ c.toNat ≤ 90 then Char.ofNat (c.toNat + 32) else c

/-- `trim` on a character list: drop the whitespace run at both ends. -/
def jsTrim (l : List Char) : List Char :=
  ((l.dropWhile jsIsWs).reverse.dropWhile jsIsWs).reverse

/-- The decimal digit character of `d` (valid for `d < 10`). -/
def digitChar (d : Nat) : Char :=
  Char.ofNat (48 + d)

/-- Fuel-driven decimal printer: most significant digit first.  The fuel is
only a structural-recursion device; `natChars` supplies enough of it. -/
def natCharsGo : Nat → Nat → List Char
  | 0, _ => []
  | fuel + 1, n =>
      if n < 10 then [digitChar n]
      else natCharsGo fuel (n / 10) ++ [digitChar (n % 10)]

/-- Modelled from the builtin JavaScript number→string conversion, for
natural numbers: usual decimal notation. -/
def natChars (n : Nat) : List Char :=
  natCharsGo (n + 1) n

/-- Modelled from the builtin JavaScript number→string conversion, for
integers: decimal notation with a leading `-` for negatives. -/
def intChars (i : Int) : List Char :=
  if i < 0 then '-' :: natChars (-i).toNat else natChars i.toNat

/-! ## Identifier sanitizer (backend/src/utils/columnUtils.ts) -/

/-- First regex pass of `sanitizeIdentifier`:
`.replace(/[^a-z0-9_]+/g, '_')` — every maximal run of characters outside
`[a-z0-9_]` becomes a single underscore.  The flag records whether we are
inside such a run (its replacement underscore already emitted). -/
def collapseBadGo : List Char → Bool → List Char
  | [], _ => []
  | c :: cs, inRun =>
      if isIdentChar c then c :: collapseBadGo cs false
      else if inRun then collapseBadGo cs true
      else '_' :: collapseBadGo cs true

/-- Second regex pass: `.replace(/_+/g, '_')` — collapse underscore runs.
The flag records whether the previous character was an underscore. -/
def collapseUndGo : List Char → Bool → List Char
  | [], _ => []
  | c :: cs, prevU =>
      if c == '_' then
        if prevU then collapseUndGo cs true else '_' :: collapseUndGo cs true
      else c :: collapseUndGo cs false

/-- Third regex pass: `.replace(/^_+|_+$/g, '')` — strip the leading and
trailing underscore runs. -/
def trimUnd (l : List Char) : List Char :=
  ((l.dropWhile (· == '_')).reverse.dropWhile (· == '_')).reverse

/-- Does the list start with a decimal digit (`/^[0-9]/.test`)? -/
def headIsDigit : List Char → Bool
  | [] => false
  | c :: _ => isDigitChar c

/-- `sanitizeIdentifier` of backend/src/utils/columnUtils.ts: lowercase the
trimmed input, collapse non-`[a-z0-9_]` runs to `_`, collapse `_` runs, strip
edge underscores, fall back to `col` when empty, prepend `col_` when the
result starts with a digit, and truncate to 64 characters. -/
def sanitizeIdentifier (input : String) : String :=
  let trimmed := (jsTrim input.data).map jsToLower
  let replaced := collapseUndGo (collapseBadGo trimmed false) false
  let noEdgeUnderscores := trimUnd replaced
  let safe := if noEdgeUnderscores = [] then ['c', 'o', 'l'] else noEdgeUnderscores
  let prefixed := if headIsDigit safe then 'c' :: 'o' :: 'l' :: '_' :: safe else safe
  String.mk (prefixed.take 64)

/-- `defaultColumnHeader` of columnUtils.ts: the template literal
`` `col_${columnIndex}` ``. -/
def defaultColumnHeader (columnIndex : Nat) : String :=
  String.mk ('c' :: 'o' :: 'l' :: '_' :: natChars columnIndex)

/-- `defaultMysqlColumnName` of columnUtils.ts:
`` `col_${columnIndex}`.substring(0, 64) ``. -/
def defaultMysqlColumnName (columnIndex : Nat) : String :=
  String.mk (('c' :: 'o' :: 'l' :: '_' :: natChars columnIndex).take 64)

/-! ## Type inference and coercion (backend/src/utils/typeCoercion.ts) -/

/-- A JavaScript cell value as it reaches `inferColumnType` / `coerceValue`:
`null`, `undefined`, a string, an (integral) number, or a boolean.
JavaScript numbers are floats; the integral case is the one cell values
exercise and keeps the model exact. -/
inductive CellValue
  | null
  | undef
  | str (s : String)
  | num (n : Int)
  | jsBool (b : Bool)
deriving DecidableEq, Repr

/-- Modelled from the builtin `String(value)` conversion. -/
def jsString : CellValue → String
  | .null => "null"
  | .undef => "undefined"
  | .str s => s
  | .num n => String.mk (intChars n)
  | .jsBool true => "true"
  | .jsBool false => "false"

/-- The boolean literal set of `inferColumnType`:
`['true', 'false', 'yes', 'no', '1', '0']`. -/
def boolLiterals : List (List Char) :=
  [['t','r','u','e'], ['f','a','l','s','e'], ['y','e','s'], ['n','o'], ['1'], ['0']]

/-- `.replace(/[^0-9.-]/g, '')`: keep only digits, `.` and `-`. -/
def stripNonNumeric (l : List Char) : List Char :=
  l.filter (fun c => isDigitChar c || c == '.' || c == '-')

/-- `.replace(/,/g, '')`: drop commas. -/
def commaStrip (l : List Char) : List Char :=
  l.filter (fun c => !(c == ','))

/-- The anchored numeric pattern `/^-?[0-9]+(\.[0-9]+)?$/`: an optional
leading minus, a nonempty digit run, and an optional dot followed by a
nonempty digit run, consuming the whole string. -/
def matchesNumeric (l : List Char) : Bool :=
  let l1 := if l.head? = some '-' then l.tail else l
  let ds := l1.takeWhile isDigitChar
  let rest := l1.dropWhile isDigitChar
  decide (ds ≠ []) &&
    (decide (rest = []) ||
      (decide (rest.head? = some '.') && decide (rest.tail ≠ []) &&
        rest.tail.all isDigitChar))

/-- Decimal value of a digit run (most significant digit first). -/
def digitsVal (l : List Char) : Nat :=
  l.foldl (fun acc c => acc * 10 + (c.toNat - 48)) 0

/-- Modelled from the builtin `parseFloat`: skip leading whitespace, read an
optional sign, an integer digit run and an optional `.`-separated fraction
run, and fail (`NaN`, here `none`) when no digit was read.  The exponent
part of the builtin grammar is omitted: every call site first strips the
input to the characters `[0-9.-]`, so no `e` can occur. -/
def parseFloatM (l : List Char) : Option Rat :=
  let l0 := l.dropWhile jsIsWs
  let isNeg : Bool := decide (l0.head? = some '-')
  let l1 := if l0.head? = some '-' ∨ l0.head? = some '+' then l0.tail else l0
  let ip := l1.takeWhile isDigitChar
  let r1 := l1.dropWhile isDigitChar
  let fp := if r1.head? = some '.' then r1.tail.takeWhile isDigitChar else []
  if ip = [] ∧ fp = [] then none
  else
    let mant : Nat := digitsVal ip * 10 ^ fp.length + digitsVal fp
    let q : Rat := (mant : Rat) / ((10 : Rat) ^ fp.length)
    some (if isNeg then -q else q)

/-- Day count of a Gregorian month, with leap-year February. -/
def daysInMonth (y m : Nat) : Nat :=
  if m = 2 then
    if y % 4 = 0 ∧ (y % 100 ≠ 0 ∨ y % 400 = 0) then 29 else 28
  else if m = 4 ∨ m = 6 ∨ m = 9 ∨ m = 11 then 30
  else 31

/-- Modelled from the builtin `new Date(string)` parser, restricted to the
date-only ISO form the repository's data exercises: exactly `YYYY-MM-DD`
with an in-range month and day yields that calendar date; every other
string is an Invalid Date (`none`).  (The builtin also accepts date-time
strings and some legacy formats; those shapes do not occur here.) -/
def jsDateParse (s : String) : Option (Nat × Nat × Nat) :=
  match s.data with
  | [y1, y2, y3, y4, '-', m1, m2, '-', d1, d2] =>
      if isDigitChar y1 && isDigitChar y2 && isDigitChar y3 && isDigitChar y4 &&
         isDigitChar m1 && isDigitChar m2 && isDigitChar d1 && isDigitChar d2 then
        let y := digitsVal [y1, y2, y3, y4]
        let m := digitsVal [m1, m2]
        let d := digitsVal [d1, d2]
        if 1 ≤ m ∧ m ≤ 12 ∧ 1 ≤ d ∧ d ≤ daysInMonth y m then some (y, m, d)
        else none
      else none
  | _ => none

/-- Does the list start with the shape `\d{4}-\d{2}-\d{2}`? -/
def dateShapeAt (l : List Char) : Bool :=
  match l with
  | y1 :: y2 :: y3 :: y4 :: '-' :: m1 :: m2 :: '-' :: d1 :: d2 :: _ =>
      isDigitChar y1 && isDigitChar y2 && isDigitChar y3 && isDigitChar y4 &&
      isDigitChar m1 && isDigitChar m2 && isDigitChar d1 && isDigitChar d2
  | _ => false

/-- The unanchored regex test `/\d{4}-\d{2}-\d{2}/.test`: the shape occurs at
some position of the string. -/
def containsDateShape : List Char → Bool
  | [] => false
  | l@(_ :: t) => dateShapeAt l || containsDateShape t

/-- The `typeof value === 'number'` test. -/
def isNumberValue : CellValue → Bool
  | .num _ => true
  | _ => false

/-- `inferColumnType` of backend/src/utils/typeCoercion.ts, mirroring the
source's early-return chain. -/
def inferColumnType (value : CellValue) : ColumnDataType :=
  if value = .null ∨ value = .undef ∨ value = .str "" then .TEXT
  else if isNumberValue value then .NUMBER
  else
    let asString := jsTrim (jsString value).data
    if asString = [] then .TEXT
    else
      let lower := asString.map jsToLower
      if lower ∈ boolLiterals then .BOOLEAN
      else if (parseFloatM (stripNonNumeric asString)).isSome &&
              matchesNumeric (commaStrip asString) then .NUMBER
      else if (jsDateParse (String.mk asString)).isSome &&
              containsDateShape asString then .DATE
      else .TEXT

/-- A coerced value as stored: a number (NUMBER and BOOLEAN targets), a
date, or a text string; `none` at the `Option` level is SQL `NULL`. -/
inductive Coerced
  | num (q : Rat)
  | date (d : Nat × Nat × Nat)
  | text (s : String)
deriving DecidableEq, Repr

/-- `coerceValue` of backend/src/utils/typeCoercion.ts.  Total by
construction: in the modelled value domain none of the builtins throws, so
the source's `try/catch` never reaches its `catch → null` branch.  The
`value instanceof Date` fast path of the DATE case is vacuous here because
`Date` objects are not cell values. -/
def coerceValue (value : CellValue) (targetType : ColumnDataType) : Option Coerced :=
  if value = .null ∨ value = .undef ∨ value = .str "" then none
  else
    match targetType with
    | .NUMBER =>
        match value with
        | .num n => some (.num (n : Rat))
        | _ =>
            match parseFloatM (stripNonNumeric (jsString value).data) with
            | some q => some (.num q)
            | none => some (.num 0)
    | .DATE => (jsDateParse (jsString value)).map .date
    | .BOOLEAN =>
        let lower := (jsTrim (jsString value).data).map jsToLower
        if lower ∈ [['t','r','u','e'], ['1'], ['y','e','s']] then some (.num 1)
        else some (.num 0)
    | .TEXT => some (.text (String.mk (jsTrim (jsString value).data)))

/-! ## Schema registry (backend/src/services/SchemaManager.ts) -/

/-- A row of `sync_schema_registry` as selected by `ensureColumnMapping`
(the `SchemaColumn` interface; `createdAt`/`updatedAt` omitted as they play
no role in the mapping logic). -/
structure SchemaColumn where
  id : Nat
  sheetId : String
  sheetName : String
  columnIndex : Nat
  columnHeader : String
  mysqlColumnName : String
  dataType : ColumnDataType
  isDeprecated : Bool
deriving DecidableEq, Repr

/-- The `SELECT … WHERE sheet_id = … AND sheet_name = … AND column_index = …
LIMIT 1` lookup over the registry table. -/
def findMapping (reg : List SchemaColumn) (sheetId sheetName : String)
    (columnIndex : Nat) : Option SchemaColumn :=
  reg.find? fun c =>
    c.sheetId == sheetId && c.sheetName == sheetName && c.columnIndex == columnIndex

/-- The `AUTO_INCREMENT` id for a freshly inserted registry row. -/
def nextId (reg : List SchemaColumn) : Nat :=
  reg.foldr (fun c m => max c.id m) 0 + 1

/-- `ensureColumnMapping` of backend/src/services/SchemaManager.ts, as a
transition on the registry table: look up the mapping by
`(sheetId, sheetName, columnIndex)`; if present and its stored type is TEXT
while the requested type differs, upgrade the stored type in place
(`UPDATE … SET data_type`) and return the upgraded row; on any other
mismatch return the stored row unchanged; if absent, insert a new row whose
header and MySQL column name are derived from the column index, and return
it. -/
def ensureColumnMapping (reg : List SchemaColumn) (sheetId sheetName : String)
    (columnIndex : Nat) (dataType : ColumnDataType) :
    List SchemaColumn × SchemaColumn :=
  match findMapping reg sheetId sheetName columnIndex with
  | some row =>
      if row.dataType ≠ dataType ∧ row.dataType = .TEXT then
        (reg.map (fun c => if c.id = row.id then { c with dataType := dataType } else c),
         { row with dataType := dataType })
      else
        (reg, row)
  | none =>
      let col : SchemaColumn :=
        { id := nextId reg
          sheetId := sheetId
          sheetName := sheetName
          columnIndex := columnIndex
          columnHeader := defaultColumnHeader columnIndex
          mysqlColumnName := sanitizeIdentifier (defaultMysqlColumnName columnIndex)
          dataType := dataType
          isDeprecated := false }
      (reg ++ [col], col)

/-! ## Row content hash (`computeHash` / `computeRowHash`)

`computeRowHash(rowData)` serializes the row as
`JSON.stringify(rowData, Object.keys(rowData).sort())` and hashes the result
with SHA-256.  The row is modelled as an association list of field names to
JSON scalar values (the cell values rows carry); `JSON.stringify` with the
array replacer serializes the properties in replacer order, i.e. in sorted
key order. -/

/-- A JSON scalar value of a row field. -/
inductive JVal
  | str (s : String)
  | num (n : Int)
  | jbool (b : Bool)
  | null
deriving DecidableEq, Repr

/-- A row record: field names with their values, in object key order. -/
abbrev RowData := List (String × JVal)

/-- Lowercase hexadecimal digit character (valid for `d < 16`). -/
def hexChar (d : Nat) : Char :=
  if d < 10 then Char.ofNat (48 + d) else Char.ofNat (87 + d)

/-- Modelled from the builtin `JSON.stringify` string escaping for one
character: `"` and `\` get a backslash escape, the five named control
characters get their short escapes, other control characters get the
six-character `\u00XX` form, and everything else is emitted as itself. -/
def escChar (c : Char) : List Char :=
  if c = '"' then ['\\', '"']
  else if c = '\\' then ['\\', '\\']
  else if c = '\x08' then ['\\', 'b']
  else if c = '\t' then ['\\', 't']
  else if c = '\n' then ['\\', 'n']
  else if c = '\x0c' then ['\\', 'f']
  else if c = '\r' then ['\\', 'r']
  else if c.toNat < 32 then ['\\', 'u', '0', '0', hexChar (c.toNat / 16), hexChar (c.toNat % 16)]
  else [c]

/-- Escape a whole character list. -/
def escL : List Char → List Char
  | [] => []
  | c :: cs => escChar c ++ escL cs

/-- JSON serialization of a string: quoted and escaped. -/
def jsonStrChars (s : String) : List Char :=
  '"' :: (escL s.data ++ ['"'])

/-- JSON serialization of a scalar value. -/
def valChars : JVal → List Char
  | .str s => jsonStrChars s
  | .num n => intChars n
  | .jbool true => ['t', 'r', 'u', 'e']
  | .jbool false => ['f', 'a', 'l', 's', 'e']
  | .null => ['n', 'u', 'l', 'l']

/-- One serialized member: `"key":value`. -/
def pairChars (p : String × JVal) : List Char :=
  jsonStrChars p.1 ++ (':' :: valChars p.2)

/-- Comma-joined serialized members. -/
def joinComma : List (String × JVal) → List Char
  | [] => []
  | [p] => pairChars p
  | p :: q :: rest => pairChars p ++ (',' :: joinComma (q :: rest))

/-- Key comparison — modelled from the builtin default `Array.sort`
comparator on key strings: lexicographic by code unit. -/
def charListLe : List Char → List Char → Bool
  | [], _ => true
  | _ :: _, [] => false
  | a :: as, b :: bs =>
      if a.toNat < b.toNat then true
      else if b.toNat < a.toNat then false
      else charListLe as bs

/-- Key order on members. -/
def keyLe (p q : String × JVal) : Bool :=
  charListLe p.1.data q.1.data

/-- Insert a member into a key-sorted member list. -/
def insertPair (p : String × JVal) : List (String × JVal) → List (String × JVal)
  | [] => [p]
  | q :: qs => if keyLe p q then p :: q :: qs else q :: insertPair p qs

/-- Modelled from the builtin `Object.keys(rowData).sort()` applied as the
replacer: the members in ascending key order (insertion sort — any correct
sort agrees on lists with pairwise distinct keys). -/
def sortPairs : List (String × JVal) → List (String × JVal)
  | [] => []
  | p :: ps => insertPair p (sortPairs ps)

/-- `JSON.stringify(rowData, Object.keys(rowData).sort())`: the members in
sorted key order, wrapped in braces. -/
def rowNormalized (rowData : RowData) : String :=
  String.mk ('\x7b' :: (joinComma (sortPairs rowData) ++ ['\x7d']))

/-- Modelled from the Node `crypto` builtin: `computeHash` is the SHA-256
hex digest of its input.  The digest is idealized as an injective function
of the input string (SHA-256 collisions are assumed not to occur), which
preserves exactly the equality structure the hash is used for. -/
def computeHash (input : String) : String :=
  input

/-- `computeRowHash` of the backend crypto utils: hash of the canonical,
key-sorted JSON serialization of the row. -/
def computeRowHash (rowData : RowData) : String :=
  computeHash (rowNormalized rowData)

/-- Replace the value stored under field `k` (used to state hash
sensitivity to a value change). -/
def setValue (rowData : RowData) (k : String) (v : JVal) : RowData :=
  rowData.map (fun p => if p.1 = k then (k, v) else p)

/-- Strict key order on members: key-≤ together with distinct keys (used to
state that a sorted member list with pairwise distinct keys is unique). -/
def keyStrictLe (p q : String × JVal) : Prop :=
  keyLe p q = true ∧ p.1 ≠ q.1

/-- Hexadecimal digit value (inverse of `hexChar` on `0`–`f`). -/
def unhex (c : Char) : Nat :=
  if c.toNat ≤ 57 then c.toNat - 48 else c.toNat - 87

/-- Decoder of the first escaped character of an escaped stream (the inverse
of `escChar`, used to prove the escaping injective). -/
def unescFirst (l : List Char) : Option (Char × List Char) :=
  match l with
  | [] => none
  | c :: rest =>
      if c = '\\' then
        match rest with
        | [] => none
        | e :: rest2 =>
            if e = '"' then some ('"', rest2)
            else if e = '\\' then some ('\\', rest2)
            else if e = 'b' then some ('\x08', rest2)
            else if e = 't' then some ('\t', rest2)
            else if e = 'n' then some ('\n', rest2)
            else if e = 'f' then some ('\x0c', rest2)
            else if e = 'r' then some ('\r', rest2)
            else if e = 'u' then
              match rest2 with
              | z1 :: z2 :: h1 :: h2 :: rest6 =>
                  if z1 = '0' ∧ z2 = '0' then
                    some (Char.ofNat (16 * unhex h1 + unhex h2), rest6)
                  else none
              | _ => none
            else none
      else some (c, rest)

/-! ## Theorems -/

/-- C1: the LWW arbiter `resolveConflict` is total and deterministic (it is a
function), a change whose origin equals the row's `lastModifiedBy` arriving
inside the cooldown window is SKIPped regardless of content, and otherwise,
with Δ = incoming timestamp − stored `lastModifiedAt`: Δ > 0 APPLYs, Δ < 0
with differing origins CONFLICTs (the function does not touch the row), and
Δ < 0 with matching origins — as well as Δ = 0 unconditionally — SKIPs,
never CONFLICTs. -/
theorem resolveConflict_lww_spec (cooldownMs : Int) (incoming : SyncPayloadMeta)
    (existing : SyncRecordMeta) :
    (incoming.source = existing.lastModifiedBy ∧
        |incoming.timestamp - existing.lastModifiedAt| < cooldownMs →
      resolveConflict cooldownMs incoming existing = .SKIP) ∧
    (¬(incoming.source = existing.lastModifiedBy ∧
        |incoming.timestamp - existing.lastModifiedAt| < cooldownMs) →
      (existing.lastModifiedAt < incoming.timestamp →
        resolveConflict cooldownMs incoming existing = .APPLY) ∧
      (incoming.timestamp < existing.lastModifiedAt ∧
          incoming.source ≠ existing.lastModifiedBy →
        resolveConflict cooldownMs incoming existing = .CONFLICT) ∧
      (incoming.timestamp < existing.lastModifiedAt ∧
          incoming.source = existing.lastModifiedBy →
        resolveConflict cooldownMs incoming existing = .SKIP)) ∧
    (incoming.timestamp = existing.lastModifiedAt →
      resolveConflict cooldownMs incoming existing = .SKIP) := by
  unfold resolveConflict
  dsimp only
  refine ⟨fun h => ?_, fun h => ⟨fun h1 => ?_, fun h2 => ?_, fun h3 => ?_⟩, fun h4 => ?_⟩ <;>
    split_ifs <;> first | rfl | omega | tauto

/-- C1 witness: the spec's two concrete scenarios — an older SHEET change
against a newer DATABASE write is a CONFLICT, and a same-origin SHEET change
1000 ms after the stored write (cooldown 5000 ms) is SKIPped as an echo. -/
theorem resolveConflict_lww_spec_witness :
    resolveConflict 5000 ⟨50, .SHEET⟩ ⟨100, .DATABASE⟩ = .CONFLICT ∧
    resolveConflict 5000 ⟨1100, .SHEET⟩ ⟨100, .SHEET⟩ = .SKIP := by
  constructor
  · exact ((resolveConflict_lww_spec 5000 ⟨50, .SHEET⟩ ⟨100, .DATABASE⟩).2.1
      (by decide)).2.1 (by decide)
  · exact (resolveConflict_lww_spec 5000 ⟨1100, .SHEET⟩ ⟨100, .SHEET⟩).1 (by decide)

/-- C3: `coerceValue` is total (it is a Lean function, and in the modelled
value domain the source's `catch` branch is unreachable); coercing
`null`/`undefined`/the empty string gives `null` for every target type;
`coerce("true", BOOLEAN) = 1`; `coerce("abc", NUMBER) = 0`; and
`coerce("not-a-date", DATE) = null`. -/
theorem coerceValue_spec :
    (∀ t, coerceValue .null t = none) ∧
    (∀ t, coerceValue .undef t = none) ∧
    (∀ t, coerceValue (.str "") t = none) ∧
    coerceValue (.str "true") .BOOLEAN = some (.num 1) ∧
    coerceValue (.str "abc") .NUMBER = some (.num 0) ∧
    coerceValue (.str "not-a-date") .DATE = none := by
  refine ⟨fun t => ?_, fun t => ?_, fun t => ?_, by decide, by decide, by decide⟩ <;>
    cases t <;> rfl

/-- C8: the DB→Sheet worker is started with `concurrency: 5` (not 1) and a
global limiter of 50 jobs per 60000 ms shared across all documents — the
repository's own ARCHITECTURE.md specifies `concurrency: 1` ("Serial
processing to maintain order"), so same-document writes are in fact allowed
to be delivered concurrently. -/
theorem dbToSheetWorker_concurrency_five :
    dbToSheetWorkerSettings.concurrency = 5 ∧
    dbToSheetWorkerSettings.concurrency ≠ 1 ∧
    dbToSheetWorkerSettings.limiterMax = 50 ∧
    dbToSheetWorkerSettings.limiterDuration = 60000 := by
  decide

/-- C9: both queues retry at most 3 times with exponential backoff, but the
configured base delay is 2000 ms, so the retry delays are 2 s and 4 s — not
the 5 s/10 s/20 s documented in ARCHITECTURE.md — and failed jobs are kept
only up to a retention bound (most recent 500 on db-to-sheet, 2000 on
sheet-to-db). -/
theorem queueRetryConfig_spec :
    sheetToDbQueueJobOptions.attempts = 3 ∧
    dbToSheetQueueJobOptions.attempts = 3 ∧
    sheetToDbQueueJobOptions.backoff = { kind := .exponential, delay := 2000 } ∧
    dbToSheetQueueJobOptions.backoff = { kind := .exponential, delay := 2000 } ∧
    bullBackoffDelay sheetToDbQueueJobOptions.backoff 0 = 2000 ∧
    bullBackoffDelay sheetToDbQueueJobOptions.backoff 1 = 4000 ∧
    bullBackoffDelay sheetToDbQueueJobOptions.backoff 0 ≠ 5000 ∧
    sheetToDbQueueJobOptions.removeOnFail = .keepCount 2000 ∧
    dbToSheetQueueJobOptions.removeOnFail = .keepCount 500 := by
  decide

/-- C10: `processJob` on a successful external write marks the target row
`SYNCED` and stamps `_synced_at`, and on a failed external write marks the
row `ERROR` and re-raises the error (so BullMQ retries) — the row's
sync-status metadata is mutated even on failure: whenever the row was not
already in `ERROR` state, its old record is gone from the table. -/
theorem processJob_sync_status (outcome : SheetWriteOutcome) (now : Int)
    (rowId : Nat) (st : SyncDbState) (meta : RowSyncMeta)
    (h : (rowId, meta) ∈ st.rows) :
    (outcome = .ok →
      (rowId, ({ syncStatus := .SYNCED, syncedAt := some now } : RowSyncMeta)) ∈
          (processJob outcome now rowId st).1.rows ∧
        (processJob outcome now rowId st).2 = .ok ()) ∧
    (∀ msg, outcome = .failed msg →
      (rowId, { meta with syncStatus := .ERROR }) ∈
          (processJob outcome now rowId st).1.rows ∧
        (processJob outcome now rowId st).2 = .error msg ∧
        (meta.syncStatus ≠ .ERROR →
          (rowId, meta) ∉ (processJob outcome now rowId st).1.rows)) := by
  constructor
  · rintro rfl
    refine ⟨?_, rfl⟩
    simpa [processJob, updateRow] using
      List.mem_map_of_mem (fun p => if p.1 = rowId then
        (p.1, ({ syncStatus := .SYNCED, syncedAt := some now } : RowSyncMeta)) else p) h
  · rintro msg rfl
    refine ⟨?_, rfl, ?_⟩
    · simpa [processJob, updateRow] using
        List.mem_map_of_mem (fun p => if p.1 = rowId then
          (p.1, { p.2 with syncStatus := SyncStatus.ERROR }) else p) h
    · intro hne hmem
      simp only [processJob, updateRow, List.mem_map] at hmem
      obtain ⟨p, _, hp⟩ := hmem
      by_cases hk : p.1 = rowId
      · rw [if_pos hk] at hp
        have : meta.syncStatus = .ERROR := by
          have := congrArg Prod.snd hp
          simp at this
          rw [← this]
        exact hne this
      · rw [if_neg hk] at hp
        exact hk (congrArg Prod.fst hp)

/-- C10 witness: a single PENDING row; the success path stamps SYNCED with
`_synced_at`, and the failure path flips it to ERROR, removes the PENDING
record, and re-raises the error message. -/
theorem processJob_sync_status_witness :
    ((1, ({ syncStatus := .SYNCED, syncedAt := some 7 } : RowSyncMeta)) ∈
        (processJob .ok 7 1 ⟨[(1, ⟨.PENDING, none⟩)], []⟩).1.rows ∧
      (processJob .ok 7 1 ⟨[(1, ⟨.PENDING, none⟩)], []⟩).2 = .ok ()) ∧
    ((1, ({ syncStatus := .ERROR, syncedAt := none } : RowSyncMeta)) ∈
        (processJob (.failed "quota") 7 1 ⟨[(1, ⟨.PENDING, none⟩)], []⟩).1.rows ∧
      (processJob (.failed "quota") 7 1 ⟨[(1, ⟨.PENDING, none⟩)], []⟩).2 = .error "quota" ∧
      ((1, (⟨.PENDING, none⟩ : RowSyncMeta)) ∉
        (processJob (.failed "quota") 7 1 ⟨[(1, ⟨.PENDING, none⟩)], []⟩).1.rows)) := by
  constructor
  · exact (processJob_sync_status .ok 7 1 ⟨[(1, ⟨.PENDING, none⟩)], []⟩ ⟨.PENDING, none⟩
      (by decide)).1 rfl
  · have := (processJob_sync_status (.failed "quota") 7 1 ⟨[(1, ⟨.PENDING, none⟩)], []⟩
      ⟨.PENDING, none⟩ (by decide)).2 "quota" rfl
    exact ⟨this.1, this.2.1, this.2.2 (by decide)⟩

/-- C2: `ensureColumnMapping` never changes a mapping whose `dataType` has
left TEXT: a found non-TEXT mapping is returned as is with the registry
untouched; the only in-place change is the one-way TEXT→specific upgrade;
a TEXT mapping asked for TEXT again is also left unchanged; and a call with
any arguments preserves every existing non-TEXT mapping of the registry
(given the table's unique ids). -/
theorem ensureColumnMapping_dataType_one_way (reg : List SchemaColumn)
    (sid sname : String) (idx : Nat) (dt : ColumnDataType)
    (hid : (reg.map SchemaColumn.id).Nodup) :
    (∀ row, findMapping reg sid sname idx = some row → row.dataType ≠ .TEXT →
      ensureColumnMapping reg sid sname idx dt = (reg, row)) ∧
    (∀ row, findMapping reg sid sname idx = some row → row.dataType = .TEXT →
        dt ≠ .TEXT →
      ensureColumnMapping reg sid sname idx dt =
        (reg.map (fun c => if c.id = row.id then { c with dataType := dt } else c),
         { row with dataType := dt })) ∧
    (∀ row, findMapping reg sid sname idx = some row → row.dataType = .TEXT →
        dt = .TEXT →
      ensureColumnMapping reg sid sname idx dt = (reg, row)) ∧
    (∀ m ∈ reg, m.dataType ≠ .TEXT →
      m ∈ (ensureColumnMapping reg sid sname idx dt).1) := by
  refine ⟨fun row hfind hrow => ?_, fun row hfind hrow hdt => ?_,
    fun row hfind hrow hdt => ?_, fun m hm hmty => ?_⟩
  · rw [ensureColumnMapping, hfind]
    dsimp only
    rw [if_neg]
    tauto
  · rw [ensureColumnMapping, hfind]
    dsimp only
    rw [if_pos ⟨by rw [hrow]; exact fun hh => hdt hh.symm, hrow⟩]
  · rw [ensureColumnMapping, hfind]
    dsimp only
    rw [if_neg (fun hc => hc.1 (hrow.trans hdt.symm))]
  · rw [ensureColumnMapping]
    cases hfind : findMapping reg sid sname idx with
    | none => exact List.mem_append_left _ hm
    | some row =>
        dsimp only
        by_cases hcond : row.dataType ≠ dt ∧ row.dataType = .TEXT
        · rw [if_pos hcond]
          have hrowmem : row ∈ reg := List.mem_of_find?_eq_some hfind
          have hne : m.id ≠ row.id := by
            intro hideq
            have heq : m = row := List.inj_on_of_nodup_map hid hm hrowmem hideq
            rw [heq] at hmty
            exact hmty hcond.2
          have hmap := List.mem_map_of_mem
            (fun c => if c.id = row.id then { c with dataType := dt } else c) hm
          dsimp only at hmap
          rwa [if_neg hne] at hmap
        · rw [if_neg hcond]
          exact hm

/-- C2 witness: a registry holding one NUMBER mapping; a call requesting DATE
for the same column leaves the registry and the mapping unchanged. -/
theorem ensureColumnMapping_dataType_one_way_witness :
    ensureColumnMapping
        [{ id := 1, sheetId := "s", sheetName := "Sheet1", columnIndex := 0,
           columnHeader := "col_0", mysqlColumnName := "col_0",
           dataType := .NUMBER, isDeprecated := false }] "s" "Sheet1" 0 .DATE =
      ([{ id := 1, sheetId := "s", sheetName := "Sheet1", columnIndex := 0,
          columnHeader := "col_0", mysqlColumnName := "col_0",
          dataType := .NUMBER, isDeprecated := false }],
       { id := 1, sheetId := "s", sheetName := "Sheet1", columnIndex := 0,
         columnHeader := "col_0", mysqlColumnName := "col_0",
         dataType := .NUMBER, isDeprecated := false }) :=
  (ensureColumnMapping_dataType_one_way
    [{ id := 1, sheetId := "s", sheetName := "Sheet1", columnIndex := 0,
       columnHeader := "col_0", mysqlColumnName := "col_0",
       dataType := .NUMBER, isDeprecated := false }] "s" "Sheet1" 0 .DATE
    (by decide)).1
    { id := 1, sheetId := "s", sheetName := "Sheet1", columnIndex := 0,
      columnHeader := "col_0", mysqlColumnName := "col_0",
      dataType := .NUMBER, isDeprecated := false } (by decide) (by decide)

/-- C7 counterexample: with `"price"` already used as a canonical name in the
destination table (first occurrence of header `"Price"`), mapping a second
column does not produce `"price_1"`: the generated canonical name is
`"col_5"`, derived from the column index alone. -/
theorem ensureColumnMapping_no_suffix_ce :
    (ensureColumnMapping
        [{ id := 1, sheetId := "s", sheetName := "Sheet1", columnIndex := 3,
           columnHeader := "Price", mysqlColumnName := "price",
           dataType := .TEXT, isDeprecated := false }]
        "s" "Sheet1" 5 .TEXT).2.mysqlColumnName = "col_5" ∧
    ("col_5" : String) ≠ "price_1" := by
  decide

/-- C7 amended: the canonical column name of a freshly mapped column is
derived from the column index alone — `sanitize("col_<index>")` — and the
default header likewise; headers play no role and no `_1`/`_2` suffix scheme
exists, collisions being impossible because names are per-index.  The new
mapping is appended to the registry. -/
theorem ensureColumnMapping_fresh_name_from_index (reg : List SchemaColumn)
    (sid sname : String) (idx : Nat) (dt : ColumnDataType)
    (h : findMapping reg sid sname idx = none) :
    (ensureColumnMapping reg sid sname idx dt).2.mysqlColumnName =
        sanitizeIdentifier (defaultMysqlColumnName idx) ∧
      (ensureColumnMapping reg sid sname idx dt).2.columnHeader =
        defaultColumnHeader idx ∧
      (ensureColumnMapping reg sid sname idx dt).1 =
        reg ++ [(ensureColumnMapping reg sid sname idx dt).2] := by
  rw [ensureColumnMapping, h]
  exact ⟨rfl, rfl, rfl⟩

/-- C7 amended witness: mapping column index 5 of an empty registry yields
the canonical name `col_5`. -/
theorem ensureColumnMapping_fresh_name_from_index_witness :
    (ensureColumnMapping [] "s" "Sheet1" 5 .TEXT).2.mysqlColumnName =
        sanitizeIdentifier (defaultMysqlColumnName 5) ∧
      (ensureColumnMapping [] "s" "Sheet1" 5 .TEXT).2.columnHeader =
        defaultColumnHeader 5 ∧
      (ensureColumnMapping [] "s" "Sheet1" 5 .TEXT).1 =
        [] ++ [(ensureColumnMapping [] "s" "Sheet1" 5 .TEXT).2] :=
  ensureColumnMapping_fresh_name_from_index [] "s" "Sheet1" 5 .TEXT rfl

/-! ### Sanitizer lemmas (towards C5)

`sanitizeIdentifier` output shape: every character is in `[a-z0-9_]`, no two
consecutive underscores, nonempty, no leading underscore and no leading
digit, length at most 64.  On inputs of that shape every stage of the
sanitizer is the identity — except the final edge trim when the 64-character
truncation has exposed a trailing underscore. -/

theorem charToNat_inj {a b : Char} (h : a.toNat = b.toNat) : a = b := by
  have ha := Char.ofNat_toNat a
  have hb := Char.ofNat_toNat b
  rw [← ha, ← hb, h]

theorem isIdentChar_iff (c : Char) :
    isIdentChar c = true ↔
      (97 ≤ c.toNat ∧ c.toNat ≤ 122) ∨ (48 ≤ c.toNat ∧ c.toNat ≤ 57) ∨ c = '_' := by
  simp [isIdentChar]
  tauto

theorem identChar_not_ws {c : Char} (h : isIdentChar c = true) : jsIsWs c = false := by
  by_contra hw
  have hw : jsIsWs c = true := by
    cases hcc : jsIsWs c
    · exact absurd hcc hw
    · rfl
  simp only [jsIsWs, Bool.or_eq_true, beq_iff_eq] at hw
  rcases hw with ((((rfl | rfl) | rfl) | rfl) | rfl) | rfl <;> exact absurd h (by decide)

theorem identChar_lower_id {c : Char} (h : isIdentChar c = true) : jsToLower c = c := by
  rcases (isIdentChar_iff c).1 h with h1 | h1 | rfl
  · rw [jsToLower, if_neg (by omega)]
  · rw [jsToLower, if_neg (by omega)]
  · decide

theorem dropWhile_eq_self_of_all {p : Char → Bool} {l : List Char}
    (h : ∀ c ∈ l, p c = false) : l.dropWhile p = l := by
  cases l with
  | nil => rfl
  | cons a as => simp [List.dropWhile_cons, h a (List.mem_cons_self a as)]

theorem head_dropWhile_false {p : Char → Bool} :
    ∀ {l : List Char} {c : Char}, (l.dropWhile p).head? = some c → p c = false := by
  intro l
  induction l with
  | nil => intro c h; simp at h
  | cons a as ih =>
      intro c h
      by_cases hp : p a
      · rw [List.dropWhile_cons, if_pos hp] at h
        exact ih h
      · rw [List.dropWhile_cons, if_neg hp] at h
        simp only [List.head?_cons, Option.some_inj] at h
        subst h
        exact Bool.not_eq_true _ ▸ hp

theorem jsTrim_eq_self {l : List Char} (h : ∀ c ∈ l, jsIsWs c = false) :
    jsTrim l = l := by
  unfold jsTrim
  rw [dropWhile_eq_self_of_all h,
    dropWhile_eq_self_of_all (fun c hc => h c (List.mem_reverse.1 hc)),
    List.reverse_reverse]

theorem dropWhile_und_eq_self {l : List Char} (h : l.head? ≠ some '_') :
    l.dropWhile (· == '_') = l := by
  cases l with
  | nil => rfl
  | cons a as =>
      rw [List.dropWhile_cons, if_neg]
      simp only [beq_iff_eq]
      intro hh
      subst hh
      exact h rfl

theorem trimUnd_eq_self {l : List Char} (h1 : l.head? ≠ some '_')
    (h2 : l.getLast? ≠ some '_') : trimUnd l = l := by
  unfold trimUnd
  rw [dropWhile_und_eq_self h1,
    dropWhile_und_eq_self (by rw [List.head?_reverse]; exact h2),
    List.reverse_reverse]

theorem trimUnd_isPrefix (l : List Char) :
    trimUnd l <+: l.dropWhile (· == '_') := by
  unfold trimUnd
  have hs : (l.dropWhile (· == '_')).reverse.dropWhile (· == '_') <:+
      (l.dropWhile (· == '_')).reverse := List.dropWhile_suffix _
  have := List.reverse_prefix.mpr hs
  rwa [List.reverse_reverse] at this

theorem trimUnd_head {l : List Char} {c : Char}
    (h : (trimUnd l).head? = some c) : c ≠ '_' := by
  obtain ⟨t, ht⟩ := trimUnd_isPrefix l
  have hh : (l.dropWhile (· == '_')).head? = some c := by
    rw [← ht, List.head?_append, h]
    rfl
  have := head_dropWhile_false hh
  simp only [beq_iff_eq] at this
  intro hc
  rw [hc] at this
  simp at this

theorem trimUnd_mem {l : List Char} {c : Char} (h : c ∈ trimUnd l) : c ∈ l := by
  obtain ⟨t, ht⟩ := trimUnd_isPrefix l
  have : c ∈ l.dropWhile (· == '_') := by
    rw [← ht]
    exact List.mem_append_left _ h
  exact (List.dropWhile_sublist _).mem this

theorem trimUnd_chain {R : Char → Char → Prop} {l : List Char}
    (h : List.Chain' R l) : List.Chain' R (trimUnd l) := by
  obtain ⟨t, ht⟩ := trimUnd_isPrefix l
  obtain ⟨s, hs⟩ := List.dropWhile_suffix (l := l) (· == '_')
  have h1 : List.Chain' R (l.dropWhile (· == '_')) := by
    rw [← hs] at h
    exact (List.chain'_append.1 h).2.1
  rw [← ht] at h1
  exact (List.chain'_append.1 h1).1

theorem collapseBadGo_all_ident :
    ∀ (l : List Char) (f : Bool), ∀ c ∈ collapseBadGo l f, isIdentChar c = true := by
  intro l
  induction l with
  | nil => intro f c hc; simp [collapseBadGo] at hc
  | cons a as ih =>
      intro f c hc
      rw [collapseBadGo] at hc
      by_cases ha : isIdentChar a
      · rw [if_pos ha] at hc
        rcases List.mem_cons.1 hc with rfl | hc
        · exact ha
        · exact ih _ c hc
      · rw [if_neg ha] at hc
        cases f with
        | true => exact ih _ c (by simpa using hc)
        | false =>
            rcases List.mem_cons.1 (by simpa using hc) with rfl | hc
            · decide
            · exact ih _ c hc

theorem collapseBadGo_eq_self :
    ∀ (l : List Char) (f : Bool), (∀ c ∈ l, isIdentChar c = true) →
      collapseBadGo l f = l := by
  intro l
  induction l with
  | nil => intro f _; rfl
  | cons a as ih =>
      intro f h
      rw [collapseBadGo, if_pos (h a (List.mem_cons_self a as))]
      rw [ih false (fun c hc => h c (List.mem_cons_of_mem a hc))]

theorem collapseUndGo_mem :
    ∀ (l : List Char) (f : Bool) (c : Char), c ∈ collapseUndGo l f → c ∈ l := by
  intro l
  induction l with
  | nil => intro f c hc; simp [collapseUndGo] at hc
  | cons a as ih =>
      intro f c hc
      rw [collapseUndGo] at hc
      by_cases ha : a == '_'
      · rw [if_pos ha] at hc
        cases f with
        | true => exact List.mem_cons_of_mem a (ih _ c (by simpa using hc))
        | false =>
            rcases List.mem_cons.1 (by simpa using hc) with rfl | hc
            · rw [show a = '_' from by simpa using ha]
              exact List.mem_cons_self _ _
            · exact List.mem_cons_of_mem a (ih _ c hc)
      · rw [if_neg ha] at hc
        rcases List.mem_cons.1 hc with rfl | hc
        · exact List.mem_cons_self _ _
        · exact List.mem_cons_of_mem a (ih _ c hc)

theorem collapseUndGo_head_ne :
    ∀ l : List Char, (collapseUndGo l true).head? ≠ some '_' := by
  intro l
  induction l with
  | nil => simp [collapseUndGo]
  | cons a as ih =>
      rw [collapseUndGo]
      by_cases ha : a == '_'
      · rw [if_pos ha]
        exact ih
      · rw [if_neg ha]
        simp only [List.head?_cons, ne_eq, Option.some_inj]
        intro hh
        subst hh
        exact ha rfl

theorem collapseUndGo_chain :
    ∀ (l : List Char) (f : Bool),
      List.Chain' (fun a b => ¬(a = '_' ∧ b = '_')) (collapseUndGo l f) := by
  intro l
  induction l with
  | nil => intro f; simp [collapseUndGo]
  | cons a as ih =>
      intro f
      rw [collapseUndGo]
      by_cases ha : a == '_'
      · rw [if_pos ha]
        cases f with
        | true => exact ih true
        | false =>
            refine List.chain'_cons'.2 ⟨?_, ih true⟩
            intro y hy hcon
            exact collapseUndGo_head_ne as (by rw [hy, hcon.2])
      · rw [if_neg ha]
        refine List.chain'_cons'.2 ⟨?_, ih false⟩
        intro y hy hcon
        rw [hcon.1] at ha
        exact ha rfl

theorem collapseUndGo_eq_self :
    ∀ (l : List Char) (f : Bool),
      List.Chain' (fun a b => ¬(a = '_' ∧ b = '_')) l →
      (f = true → l.head? ≠ some '_') → collapseUndGo l f = l := by
  intro l
  induction l with
  | nil => intro f _ _; rfl
  | cons a as ih =>
      intro f hch hf
      have hch' := List.chain'_cons'.1 hch
      rw [collapseUndGo]
      by_cases ha : a == '_'
      · have ha' : a = '_' := by simpa using ha
        rw [if_pos ha]
        cases f with
        | true => exact absurd (show (a :: as).head? = some '_' by rw [ha', List.head?_cons]) (hf rfl)
        | false =>
            rw [if_neg (by simp)]
            rw [ih true hch'.2 ?_]
            · rw [ha']
            · intro _
              cases has : as.head? with
              | none => simp
              | some y =>
                  simp only [ne_eq, Option.some_inj]
                  intro hy
                  exact hch'.1 y has ⟨ha', hy⟩
      · rw [if_neg ha]
        rw [ih false hch'.2 (by simp)]

theorem headIsDigit_iff (l : List Char) :
    headIsDigit l = true ↔ ∃ c, l.head? = some c ∧ isDigitChar c = true := by
  cases l with
  | nil => simp [headIsDigit]
  | cons a as => simp [headIsDigit]

theorem take64_head (l : List Char) : (l.take 64).head? = l.head? := by
  rw [List.head?_take]
  simp

theorem headIsDigit_take64 (l : List Char) : headIsDigit (l.take 64) = headIsDigit l := by
  cases l with
  | nil => rfl
  | cons a as => rfl

theorem digit_ne_und {c : Char} (h : isDigitChar c = true) : c ≠ '_' := by
  intro hc
  rw [hc] at h
  exact absurd h (by decide)

/-- Output shape of `sanitizeIdentifier`: identifier characters only, no
double underscore, nonempty, no leading underscore, no leading digit,
length at most 64. -/
theorem sanitizeIdentifier_shape (x : String) :
    (∀ c ∈ (sanitizeIdentifier x).data, isIdentChar c = true) ∧
    List.Chain' (fun a b => ¬(a = '_' ∧ b = '_')) (sanitizeIdentifier x).data ∧
    (sanitizeIdentifier x).data ≠ [] ∧
    (sanitizeIdentifier x).data.head? ≠ some '_' ∧
    headIsDigit (sanitizeIdentifier x).data = false ∧
    (sanitizeIdentifier x).data.length ≤ 64 := by
  unfold sanitizeIdentifier
  dsimp only
  set t := (jsTrim x.data).map jsToLower with ht
  set r := collapseUndGo (collapseBadGo t false) false with hr
  set ne' := trimUnd r with hne'
  have hrIdent : ∀ c ∈ r, isIdentChar c = true := by
    intro c hc
    exact collapseBadGo_all_ident t false c (collapseUndGo_mem _ false c hc)
  have hrChain : List.Chain' (fun a b => ¬(a = '_' ∧ b = '_')) r :=
    collapseUndGo_chain _ false
  have hneIdent : ∀ c ∈ ne', isIdentChar c = true :=
    fun c hc => hrIdent c (trimUnd_mem hc)
  have hneChain : List.Chain' (fun a b => ¬(a = '_' ∧ b = '_')) ne' :=
    trimUnd_chain hrChain
  have hneHead : ne'.head? ≠ some '_' := by
    cases hh : ne'.head? with
    | none => simp
    | some c =>
        simp only [ne_eq, Option.some_inj]
        intro hc
        exact trimUnd_head hh hc
  by_cases hemp : ne' = []
  · rw [if_pos hemp, if_neg (by decide)]
    refine ⟨by decide, ?_, by decide, by decide, by decide, by decide⟩
    exact List.Chain'.take (List.chain'_cons'.2 ⟨fun y hy h => absurd h.1 (by decide),
      List.chain'_cons'.2 ⟨fun y hy h => absurd h.1 (by decide),
        List.chain'_singleton _⟩⟩) 64
  · rw [if_neg hemp]
    by_cases hdig : headIsDigit ne'
    · rw [if_pos hdig]
      obtain ⟨d, hd, hdd⟩ := (headIsDigit_iff ne').1 hdig
      have hchainAll :
          List.Chain' (fun a b => ¬(a = '_' ∧ b = '_'))
            ('c' :: 'o' :: 'l' :: '_' :: ne') := by
        refine List.chain'_cons'.2 ⟨fun y hy h => absurd h.1 (by decide), ?_⟩
        refine List.chain'_cons'.2 ⟨fun y hy h => absurd h.1 (by decide), ?_⟩
        refine List.chain'_cons'.2 ⟨fun y hy h => absurd h.1 (by decide), ?_⟩
        refine List.chain'_cons'.2 ⟨?_, hneChain⟩
        intro y hy h
        rw [hd] at hy
        have hyd : d = y := by simpa using hy
        exact digit_ne_und hdd (hyd.trans h.2)
      refine ⟨?_, ?_, ?_, ?_, ?_, ?_⟩
      · intro c hc
        have hc' := (List.take_sublist 64 _).mem hc
        rcases List.mem_cons.1 hc' with rfl | hc'
        · decide
        rcases List.mem_cons.1 hc' with rfl | hc'
        · decide
        rcases List.mem_cons.1 hc' with rfl | hc'
        · decide
        rcases List.mem_cons.1 hc' with rfl | hc'
        · decide
        · exact hneIdent _ hc'
      · exact List.Chain'.take hchainAll 64
      · simp
      · rw [take64_head]
        simp
      · rw [headIsDigit_take64]
        rfl
      · simp [List.length_take]
    · rw [if_neg hdig]
      refine ⟨?_, ?_, ?_, ?_, ?_, ?_⟩
      · intro c hc
        exact hneIdent c ((List.take_sublist 64 _).mem hc)
      · exact List.Chain'.take hneChain 64
      · intro hcon
        have := congrArg List.length hcon
        simp only [List.length_take, List.length_nil] at this
        rcases Nat.min_eq_zero_iff.1 this.symm.symm with h64 | hlen
        · omega
        · exact hemp (List.length_eq_zero.1 hlen)
      · rw [take64_head]
        exact hneHead
      · rw [headIsDigit_take64]
        simpa using hdig
      · simp [List.length_take]

/-- C5 counterexample: `sanitizeIdentifier` is not idempotent.  On an input of
63 `a`s followed by `_b`, the 64-character truncation cuts right after the
interior underscore, so the first output ends in `_` and a second application
trims it away. -/
theorem sanitizeIdentifier_truncation_not_idempotent :
    sanitizeIdentifier (sanitizeIdentifier
        "aaaaaaaaaaaaaaaaaaaaaaaaaaaaaaaaaaaaaaaaaaaaaaaaaaaaaaaaaaaaaaa_b") ≠
      sanitizeIdentifier
        "aaaaaaaaaaaaaaaaaaaaaaaaaaaaaaaaaaaaaaaaaaaaaaaaaaaaaaaaaaaaaaa_b" := by
  decide

/-- C5 amended: `sanitizeIdentifier` (lowercase, collapse non-`[a-z0-9_]`
runs to `_`, collapse `_` runs, trim edge underscores, `col` fallback,
`col_` digit prefix, truncate to 64) is idempotent on every input whose
sanitized form does not end in an underscore — the only way a trailing
underscore can arise is the 64-character truncation cutting just after an
interior underscore, and on such inputs the second application trims it. -/
theorem sanitizeIdentifier_idempotent_no_trailing_und (x : String)
    (h : (sanitizeIdentifier x).data.getLast? ≠ some '_') :
    sanitizeIdentifier (sanitizeIdentifier x) = sanitizeIdentifier x := by
  obtain ⟨hIdent, hChain, hne, hHead, hDig, hLen⟩ := sanitizeIdentifier_shape x
  set y := sanitizeIdentifier x with hy
  rw [sanitizeIdentifier]
  rw [jsTrim_eq_self (fun c hc => identChar_not_ws (hIdent c hc))]
  rw [List.map_congr_left (fun c hc => identChar_lower_id (hIdent c hc)), List.map_id']
  rw [collapseBadGo_eq_self _ false hIdent]
  rw [collapseUndGo_eq_self _ false hChain (by simp)]
  rw [trimUnd_eq_self hHead h]
  rw [if_neg hne]
  rw [if_neg (by rw [hDig]; simp)]
  rw [List.take_of_length_le hLen]

/-- C5 witness: a concrete input whose sanitized form has no trailing
underscore, idempotent by the amended theorem. -/
theorem sanitizeIdentifier_idempotent_no_trailing_und_witness :
    (sanitizeIdentifier "Hello World!").data.getLast? ≠ some '_' ∧
    sanitizeIdentifier (sanitizeIdentifier "Hello World!") =
      sanitizeIdentifier "Hello World!" :=
  ⟨by decide, sanitizeIdentifier_idempotent_no_trailing_und "Hello World!" (by decide)⟩

/-! ### Type-inference lemmas (towards C6) -/

theorem matchesNumeric_decomp {u : List Char} (hm : matchesNumeric u = true) :
    ∃ sgn ds rest, (sgn = ([] : List Char) ∨ sgn = ['-']) ∧ ds ≠ [] ∧
      (∀ c ∈ ds, isDigitChar c = true) ∧
      (rest = [] ∨ ∃ fs, rest = '.' :: fs ∧ ∀ c ∈ fs, isDigitChar c = true) ∧
      u = sgn ++ ds ++ rest := by
  unfold matchesNumeric at hm
  dsimp only at hm
  rw [Bool.and_eq_true] at hm
  obtain ⟨h1, h2⟩ := hm
  by_cases hneg : u.head? = some '-'
  · rw [if_pos hneg] at h1 h2
    obtain ⟨t, rfl⟩ : ∃ t, u = '-' :: t := by
      cases u with
      | nil => simp at hneg
      | cons a t =>
          simp only [List.head?_cons, Option.some_inj] at hneg
          exact ⟨t, by rw [hneg]⟩
    simp only [List.tail_cons] at h1 h2
    refine ⟨['-'], t.takeWhile isDigitChar, t.dropWhile isDigitChar, Or.inr rfl,
      of_decide_eq_true h1, fun c hc => List.mem_takeWhile_imp hc, ?_, by
        simp [List.takeWhile_append_dropWhile]⟩
    rw [Bool.or_eq_true] at h2
    rcases h2 with h2 | h2
    · exact Or.inl (of_decide_eq_true h2)
    · rw [Bool.and_eq_true, Bool.and_eq_true] at h2
      obtain ⟨⟨hdot, _⟩, hall⟩ := h2
      have hdot := of_decide_eq_true hdot
      right
      refine ⟨(t.dropWhile isDigitChar).tail, ?_, fun c hc => (List.all_eq_true.1 hall) c hc⟩
      cases hr : t.dropWhile isDigitChar with
      | nil => rw [hr] at hdot; simp at hdot
      | cons b fs =>
          rw [hr] at hdot
          simp only [List.head?_cons, Option.some_inj] at hdot
          rw [hdot]
          rfl
  · rw [if_neg hneg] at h1 h2
    refine ⟨[], u.takeWhile isDigitChar, u.dropWhile isDigitChar, Or.inl rfl,
      of_decide_eq_true h1, fun c hc => List.mem_takeWhile_imp hc, ?_, by
        simp [List.takeWhile_append_dropWhile]⟩
    rw [Bool.or_eq_true] at h2
    rcases h2 with h2 | h2
    · exact Or.inl (of_decide_eq_true h2)
    · rw [Bool.and_eq_true, Bool.and_eq_true] at h2
      obtain ⟨⟨hdot, _⟩, hall⟩ := h2
      have hdot := of_decide_eq_true hdot
      right
      refine ⟨(u.dropWhile isDigitChar).tail, ?_, fun c hc => (List.all_eq_true.1 hall) c hc⟩
      cases hr : u.dropWhile isDigitChar with
      | nil => rw [hr] at hdot; simp at hdot
      | cons b fs =>
          rw [hr] at hdot
          simp only [List.head?_cons, Option.some_inj] at hdot
          rw [hdot]
          rfl

theorem digit_not_ws {c : Char} (h : isDigitChar c = true) : jsIsWs c = false := by
  refine identChar_not_ws ?_
  rw [isIdentChar]
  rw [show (48 ≤ c.toNat && c.toNat ≤ 57) = true from by
    simpa [isDigitChar] using h]
  simp

theorem parseFloatM_isSome_digit {d : Char} {X : List Char}
    (hd : isDigitChar d = true) : (parseFloatM (d :: X)).isSome = true := by
  unfold parseFloatM
  dsimp only
  rw [List.dropWhile_cons,
    if_neg (show ¬(jsIsWs d = true) from by rw [digit_not_ws hd]; simp)]
  rw [if_neg (show ¬((d :: X).head? = some '-' ∨ (d :: X).head? = some '+') from by
    simp only [List.head?_cons, Option.some_inj]
    rintro (rfl | rfl) <;> exact absurd hd (by decide))]
  rw [List.takeWhile_cons, if_pos hd]
  split
  all_goals
    split
    next h2 => exact absurd h2.1 (List.cons_ne_nil _ _)
    next => rfl

theorem parseFloatM_isSome_neg_digit {d : Char} {X : List Char}
    (hd : isDigitChar d = true) : (parseFloatM ('-' :: d :: X)).isSome = true := by
  unfold parseFloatM
  dsimp only
  rw [List.dropWhile_cons, if_neg (show ¬(jsIsWs '-' = true) from by decide)]
  rw [if_pos (show ('-' :: d :: X).head? = some '-' ∨
    ('-' :: d :: X).head? = some '+' from Or.inl rfl)]
  simp only [List.tail_cons]
  rw [List.takeWhile_cons, if_pos hd]
  split
  all_goals
    split
    next h2 => exact absurd h2.1 (List.cons_ne_nil _ _)
    next => rfl

theorem matchesNumeric_imp_parseFloat {t : List Char}
    (hm : matchesNumeric (commaStrip t) = true) :
    (parseFloatM (stripNonNumeric t)).isSome = true := by
  obtain ⟨sgn, ds, rest, hsgn, hds, hdsdig, hrest, hu⟩ := matchesNumeric_decomp hm
  have hchars : ∀ c ∈ commaStrip t, (isDigitChar c || c == '.' || c == '-') = true := by
    intro c hc
    rw [hu] at hc
    rcases List.mem_append.1 hc with hc | hc
    · rcases List.mem_append.1 hc with hc | hc
      · rcases hsgn with rfl | rfl
        · simp at hc
        · have : c = '-' := by simpa using hc
          rw [this]
          decide
      · rw [hdsdig c hc]
        simp
    · rcases hrest with rfl | ⟨fs, rfl, hfs⟩
      · simp at hc
      · rcases List.mem_cons.1 hc with rfl | hc
        · decide
        · rw [hfs c hc]
          simp
  have hstrip : stripNonNumeric t = commaStrip t := by
    unfold stripNonNumeric commaStrip
    refine List.filter_congr ?_
    intro c hcT
    by_cases hcc : c = ','
    · subst hcc
      decide
    · have hmem : c ∈ commaStrip t := List.mem_filter.2 ⟨hcT, by simp [hcc]⟩
      rw [hchars c hmem]
      simp [hcc]
  rw [hstrip, hu]
  obtain ⟨d, ds', rfl⟩ : ∃ d ds', ds = d :: ds' := by
    cases ds with
    | nil => exact absurd rfl hds
    | cons d ds' => exact ⟨d, ds', rfl⟩
  have hddig := hdsdig d (List.mem_cons_self _ _)
  rcases hsgn with rfl | rfl
  · simpa using parseFloatM_isSome_digit (X := ds' ++ rest) hddig
  · simpa using parseFloatM_isSome_neg_digit (X := ds' ++ rest) hddig

theorem jsDateParse_shape {t : List Char} {d : Nat × Nat × Nat}
    (hp : jsDateParse (String.mk t) = some d) : dateShapeAt t = true := by
  unfold jsDateParse at hp
  split at hp
  case _ y1 y2 y3 y4 m1 m2 d1 d2 heq =>
      rw [show (String.mk t).data = t from rfl] at heq
      rw [heq]
      split at hp
      case _ hdig =>
          rw [dateShapeAt]
          exact hdig
      case _ => exact absurd hp (by simp)
  case _ => exact absurd hp (by simp)

theorem containsDateShape_of_shape {t : List Char} (h : dateShapeAt t = true) :
    containsDateShape t = true := by
  cases t with
  | nil => exact absurd h (by decide)
  | cons a r =>
      rw [containsDateShape, h]
      simp

theorem inferColumnType_str (s : String) (hs : s ≠ "") :
    inferColumnType (.str s) =
      (if jsTrim s.data = [] then .TEXT
       else if (jsTrim s.data).map jsToLower ∈ boolLiterals then .BOOLEAN
       else if (parseFloatM (stripNonNumeric (jsTrim s.data))).isSome &&
               matchesNumeric (commaStrip (jsTrim s.data)) then .NUMBER
       else if (jsDateParse (String.mk (jsTrim s.data))).isSome &&
               containsDateShape (jsTrim s.data) then .DATE
       else .TEXT) := by
  unfold inferColumnType
  rw [if_neg (show ¬(CellValue.str s = .null ∨ CellValue.str s = .undef ∨
      CellValue.str s = .str "") from by
    rintro (h | h | h)
    · exact CellValue.noConfusion h
    · exact CellValue.noConfusion h
    · exact hs (CellValue.noConfusion h id))]
  rw [if_neg (show ¬(isNumberValue (.str s) = true) from fun h => nomatch h)]
  rfl

/-- C6: `inferColumnType` returns TEXT for every empty or absent sample
(`null`, `undefined`, and every string whose trim is empty); NUMBER for raw
numbers; BOOLEAN for every string whose trimmed, lowercased form is in the
literal set `true/false/yes/no/1/0` (and for raw booleans); NUMBER for every
remaining string matching the anchored numeric pattern on the comma-stripped
form (the `parseFloat` conjunct of the source is implied); DATE exactly for
the remaining strings that parse to a valid instant — all of which carry the
`YYYY-MM-DD` shape as a prefix; and TEXT for everything else. -/
theorem inferColumnType_spec :
    inferColumnType .null = .TEXT ∧
    inferColumnType .undef = .TEXT ∧
    (∀ s : String, jsTrim s.data = [] → inferColumnType (.str s) = .TEXT) ∧
    (∀ n : Int, inferColumnType (.num n) = .NUMBER) ∧
    (∀ b : Bool, inferColumnType (.jsBool b) = .BOOLEAN) ∧
    (∀ s : String, (jsTrim s.data).map jsToLower ∈ boolLiterals →
      inferColumnType (.str s) = .BOOLEAN) ∧
    (∀ s : String, (jsTrim s.data).map jsToLower ∉ boolLiterals →
      matchesNumeric (commaStrip (jsTrim s.data)) = true →
      inferColumnType (.str s) = .NUMBER) ∧
    (∀ s : String, jsTrim s.data ≠ [] →
      (jsTrim s.data).map jsToLower ∉ boolLiterals →
      matchesNumeric (commaStrip (jsTrim s.data)) = false →
      (inferColumnType (.str s) = .DATE ↔
        (jsDateParse (String.mk (jsTrim s.data))).isSome = true)) ∧
    (∀ s : String, inferColumnType (.str s) = .DATE →
      dateShapeAt (jsTrim s.data) = true) ∧
    (∀ s : String, jsTrim s.data ≠ [] →
      (jsTrim s.data).map jsToLower ∉ boolLiterals →
      matchesNumeric (commaStrip (jsTrim s.data)) = false →
      (jsDateParse (String.mk (jsTrim s.data))).isSome = false →
      inferColumnType (.str s) = .TEXT) := by
  have hToTrim : ∀ s : String, s = "" → jsTrim s.data = [] := by
    rintro s rfl
    rfl
  refine ⟨rfl, rfl, ?_, ?_, ?_, ?_, ?_, ?_, ?_, ?_⟩
  · intro s htrim
    by_cases hs : s = ""
    · subst hs
      rfl
    · rw [inferColumnType_str s hs, if_pos htrim]
  · intro n
    unfold inferColumnType
    rw [if_neg (show ¬(CellValue.num n = .null ∨ CellValue.num n = .undef ∨
        CellValue.num n = .str "") from by
      rintro (h | h | h) <;> exact CellValue.noConfusion h)]
    rw [if_pos (show isNumberValue (.num n) = true from rfl)]
  · intro b
    cases b <;> decide
  · intro s hb
    by_cases hs : s = ""
    · rw [hToTrim s hs] at hb
      exact absurd hb (by decide)
    · by_cases htrim : jsTrim s.data = []
      · rw [htrim] at hb
        exact absurd hb (by decide)
      · rw [inferColumnType_str s hs, if_neg htrim, if_pos hb]
  · intro s hb hm
    have htrim : jsTrim s.data ≠ [] := by
      intro hcon
      rw [hcon] at hm
      exact absurd hm (by decide)
    have hs : s ≠ "" := fun hcon => htrim (hToTrim s hcon)
    rw [inferColumnType_str s hs, if_neg htrim, if_neg hb,
      if_pos (show ((parseFloatM (stripNonNumeric (jsTrim s.data))).isSome &&
        matchesNumeric (commaStrip (jsTrim s.data))) = true from by
        rw [matchesNumeric_imp_parseFloat hm, hm]
        rfl)]
  · intro s htrim hb hmn
    have hs : s ≠ "" := fun hcon => htrim (hToTrim s hcon)
    rw [inferColumnType_str s hs, if_neg htrim, if_neg hb,
      if_neg (show ¬(((parseFloatM (stripNonNumeric (jsTrim s.data))).isSome &&
        matchesNumeric (commaStrip (jsTrim s.data))) = true) from by
        rw [hmn, Bool.and_false]
        simp)]
    constructor
    · intro h
      cases hps : (jsDateParse (String.mk (jsTrim s.data))).isSome with
      | false =>
          rw [hps, Bool.false_and] at h
          rw [if_neg (by simp)] at h
          exact absurd h (by decide)
      | true => rfl
    · intro hps
      obtain ⟨d, hd⟩ := Option.isSome_iff_exists.1 hps
      have hshape := containsDateShape_of_shape (jsDateParse_shape hd)
      rw [if_pos (show ((jsDateParse (String.mk (jsTrim s.data))).isSome &&
        containsDateShape (jsTrim s.data)) = true from by rw [hps, hshape]; rfl)]
  · intro s h
    by_cases hs : s = ""
    · subst hs
      exact absurd h (by decide)
    · rw [inferColumnType_str s hs] at h
      split_ifs at h with h1 h2 h3 h4
      rw [Bool.and_eq_true] at h4
      obtain ⟨d, hd⟩ := Option.isSome_iff_exists.1 h4.1
      exact jsDateParse_shape hd
  · intro s htrim hb hmn hps
    have hs : s ≠ "" := fun hcon => htrim (hToTrim s hcon)
    rw [inferColumnType_str s hs, if_neg htrim, if_neg hb,
      if_neg (show ¬(((parseFloatM (stripNonNumeric (jsTrim s.data))).isSome &&
        matchesNumeric (commaStrip (jsTrim s.data))) = true) from by
        rw [hmn, Bool.and_false]
        simp),
      if_neg (show ¬(((jsDateParse (String.mk (jsTrim s.data))).isSome &&
        containsDateShape (jsTrim s.data)) = true) from by
        rw [hps, Bool.false_and]
        simp)]

/-- C6 witness: a concrete sample for each classification — whitespace →
TEXT, `" 1 "` → BOOLEAN, `"1,234.5"` → NUMBER, `"2024-01-02"` → DATE,
`"2024-02-30"` (no valid instant) and `"hello"` → TEXT. -/
theorem inferColumnType_spec_witness :
    inferColumnType (.str "  ") = .TEXT ∧
    inferColumnType (.str " 1 ") = .BOOLEAN ∧
    inferColumnType (.str "1,234.5") = .NUMBER ∧
    inferColumnType (.str "2024-01-02") = .DATE ∧
    inferColumnType (.str "2024-02-30") = .TEXT ∧
    inferColumnType (.str "hello") = .TEXT := by
  refine ⟨inferColumnType_spec.2.2.1 "  " (by decide),
    inferColumnType_spec.2.2.2.2.2.1 " 1 " (by decide),
    inferColumnType_spec.2.2.2.2.2.2.1 "1,234.5" (by decide) (by decide),
    (inferColumnType_spec.2.2.2.2.2.2.2.1 "2024-01-02" (by decide) (by decide)
      (by decide)).2 (by decide),
    inferColumnType_spec.2.2.2.2.2.2.2.2.2 "2024-02-30" (by decide) (by decide)
      (by decide) (by decide),
    inferColumnType_spec.2.2.2.2.2.2.2.2.2 "hello" (by decide) (by decide)
      (by decide) (by decide)⟩

/-! ### Row-hash lemmas (towards C4): decimal printing is injective -/

theorem digitChar_toNat {n : Nat} (h : n < 10) : (digitChar n).toNat = 48 + n := by
  interval_cases n <;> decide

theorem isDigitChar_digitChar {n : Nat} (h : n < 10) : isDigitChar (digitChar n) = true := by
  interval_cases n <;> decide

theorem digitsVal_append_singleton (A : List Char) (c : Char) :
    digitsVal (A ++ [c]) = digitsVal A * 10 + (c.toNat - 48) := by
  unfold digitsVal
  rw [List.foldl_append]
  rfl

theorem natCharsGo_eval : ∀ (fuel n : Nat), n < fuel →
    digitsVal (natCharsGo fuel n) = n := by
  intro fuel
  induction fuel with
  | zero => intro n h; omega
  | succ f ih =>
      intro n h
      rw [natCharsGo]
      by_cases h10 : n < 10
      · rw [if_pos h10]
        show digitsVal [digitChar n] = n
        unfold digitsVal
        simp [digitChar_toNat h10]
      · rw [if_neg h10]
        rw [digitsVal_append_singleton]
        rw [ih (n / 10) (by omega)]
        rw [digitChar_toNat (Nat.mod_lt n (by omega))]
        omega

theorem natChars_eval (n : Nat) : digitsVal (natChars n) = n :=
  natCharsGo_eval (n + 1) n (Nat.lt_succ_self n)

theorem natChars_inj {m n : Nat} (h : natChars m = natChars n) : m = n := by
  have := natChars_eval m
  rw [h, natChars_eval] at this
  exact this.symm

theorem natCharsGo_digits : ∀ (fuel n : Nat), ∀ c ∈ natCharsGo fuel n,
    isDigitChar c = true := by
  intro fuel
  induction fuel with
  | zero => intro n c hc; simp [natCharsGo] at hc
  | succ f ih =>
      intro n c hc
      rw [natCharsGo] at hc
      by_cases h10 : n < 10
      · rw [if_pos h10] at hc
        rcases List.mem_cons.1 hc with rfl | hc
        · exact isDigitChar_digitChar h10
        · simp at hc
      · rw [if_neg h10] at hc
        rcases List.mem_append.1 hc with hc | hc
        · exact ih _ c hc
        · rcases List.mem_cons.1 hc with rfl | hc
          · exact isDigitChar_digitChar (Nat.mod_lt n (by omega))
          · simp at hc

theorem natCharsGo_ne_nil (f n : Nat) : natCharsGo (f + 1) n ≠ [] := by
  rw [natCharsGo]
  by_cases h10 : n < 10
  · rw [if_pos h10]
    simp
  · rw [if_neg h10]
    simp

theorem natChars_head (n : Nat) :
    ∃ c rest, natChars n = c :: rest ∧ isDigitChar c = true := by
  cases hl : natChars n with
  | nil => exact absurd hl (natCharsGo_ne_nil n n)
  | cons c rest =>
      refine ⟨c, rest, rfl, ?_⟩
      refine natCharsGo_digits (n + 1) n c ?_
      show c ∈ natChars n
      rw [hl]
      exact List.mem_cons_self c rest

theorem intChars_head (i : Int) :
    ∃ c rest, intChars i = c :: rest ∧ (c = '-' ∨ isDigitChar c = true) := by
  unfold intChars
  by_cases hi : i < 0
  · rw [if_pos hi]
    exact ⟨'-', natChars (-i).toNat, rfl, Or.inl rfl⟩
  · rw [if_neg hi]
    obtain ⟨c, rest, hc, hcd⟩ := natChars_head i.toNat
    exact ⟨c, rest, hc, Or.inr hcd⟩

theorem intChars_inj {i j : Int} (h : intChars i = intChars j) : i = j := by
  unfold intChars at h
  by_cases hi : i < 0 <;> by_cases hj : j < 0
  · rw [if_pos hi, if_pos hj] at h
    have h2 : natChars (-i).toNat = natChars (-j).toNat := List.tail_eq_of_cons_eq h
    have h3 : (-i).toNat = (-j).toNat := natChars_inj h2
    have h4 : (-i) = (-j) := by
      have li := Int.toNat_of_nonneg (by omega : (0:Int) ≤ -i)
      have lj := Int.toNat_of_nonneg (by omega : (0:Int) ≤ -j)
      rw [← li, ← lj, h3]
    omega
  · rw [if_pos hi, if_neg hj] at h
    obtain ⟨c, rest, hc, hcd⟩ := natChars_head j.toNat
    rw [hc] at h
    have : '-' = c := List.head_eq_of_cons_eq h
    rw [← this] at hcd
    exact absurd hcd (by decide)
  · rw [if_neg hi, if_pos hj] at h
    obtain ⟨c, rest, hc, hcd⟩ := natChars_head i.toNat
    rw [hc] at h
    have : c = '-' := List.head_eq_of_cons_eq h
    rw [this] at hcd
    exact absurd hcd (by decide)
  · rw [if_neg hi, if_neg hj] at h
    have h3 : i.toNat = j.toNat := natChars_inj h
    omega

/-! ### Row-hash lemmas (towards C4): JSON string escaping is injective -/

theorem unhex_hexChar {k : Nat} (h : k < 16) : unhex (hexChar k) = k := by
  interval_cases k <;> decide

theorem unescFirst_escChar (c : Char) (rest : List Char) :
    unescFirst (escChar c ++ rest) = some (c, rest) := by
  unfold escChar
  split_ifs with h1 h2 h3 h4 h5 h6 h7 h8
  · subst h1; rfl
  · subst h2; rfl
  · subst h3; rfl
  · subst h4; rfl
  · subst h5; rfl
  · subst h6; rfl
  · subst h7; rfl
  · show some (Char.ofNat (16 * unhex (hexChar (c.toNat / 16)) +
      unhex (hexChar (c.toNat % 16))), rest) = some (c, rest)
    rw [unhex_hexChar (by omega), unhex_hexChar (Nat.mod_lt _ (by omega)),
      Nat.div_add_mod, Char.ofNat_toNat]
  · show unescFirst (c :: rest) = some (c, rest)
    unfold unescFirst
    dsimp only
    rw [if_neg h2]

theorem escChar_ne_nil (c : Char) : escChar c ≠ [] := by
  unfold escChar
  split_ifs <;> simp

theorem escL_inj : ∀ {s t : List Char}, escL s = escL t → s = t := by
  intro s
  induction s with
  | nil =>
      intro t h
      cases t with
      | nil => rfl
      | cons b bs =>
          rw [escL, escL] at h
          exact absurd h.symm (by
            intro hcon
            rcases List.append_eq_nil.1 hcon with ⟨h1, _⟩
            exact escChar_ne_nil b h1)
  | cons a as ih =>
      intro t h
      cases t with
      | nil =>
          rw [escL, escL] at h
          exact absurd h (by
            intro hcon
            rcases List.append_eq_nil.1 hcon with ⟨h1, _⟩
            exact escChar_ne_nil a h1)
      | cons b bs =>
          rw [escL, escL] at h
          have h2 := congrArg unescFirst h
          rw [unescFirst_escChar, unescFirst_escChar] at h2
          simp only [Option.some_inj, Prod.mk.injEq] at h2
          rw [h2.1, ih h2.2]

theorem jsonStrChars_inj {s t : String} (h : jsonStrChars s = jsonStrChars t) :
    s = t := by
  unfold jsonStrChars at h
  have h2 := List.tail_eq_of_cons_eq h
  have h3 := List.append_cancel_right h2
  exact String.ext (escL_inj h3)

/-! ### Row-hash lemmas (towards C4): value serialization is injective -/

theorem valChars_head (v : JVal) :
    ∃ c rest, valChars v = c :: rest ∧
      (c = '"' ∨ c = '-' ∨ isDigitChar c = true ∨ c = 't' ∨ c = 'f' ∨ c = 'n') := by
  cases v with
  | str s => exact ⟨'"', _, rfl, Or.inl rfl⟩
  | num n =>
      obtain ⟨c, rest, hc, hcd⟩ := intChars_head n
      exact ⟨c, rest, hc, by
        rcases hcd with h | h
        · exact Or.inr (Or.inl h)
        · exact Or.inr (Or.inr (Or.inl h))⟩
  | jbool b => cases b with
      | true => exact ⟨'t', _, rfl, by simp⟩
      | false => exact ⟨'f', _, rfl, by simp⟩
  | null => exact ⟨'n', _, rfl, by simp⟩

theorem valChars_inj : ∀ {v w : JVal}, valChars v = valChars w → v = w := by
  have hstr : ∀ (s : String) (w : JVal), valChars (.str s) = valChars w →
      JVal.str s = w := by
    intro s w h
    cases w with
    | str t =>
        simp only [valChars] at h
        rw [jsonStrChars_inj h]
    | num n =>
        obtain ⟨c, rest, hc, hcd⟩ := intChars_head n
        simp only [valChars, jsonStrChars] at h
        rw [hc] at h
        injection h with h1 _
        rw [← h1] at hcd
        rcases hcd with h2 | h2 <;> exact absurd h2 (by decide)
    | jbool b =>
        cases b with
        | true => exact absurd h (by simp [valChars, jsonStrChars])
        | false => exact absurd h (by simp [valChars, jsonStrChars])
    | null => exact absurd h (by simp [valChars, jsonStrChars])
  intro v w h
  cases v with
  | str s => exact hstr s w h
  | num n =>
      cases w with
      | str t => exact (hstr t (.num n) h.symm).symm
      | num m =>
          simp only [valChars] at h
          rw [intChars_inj h]
      | jbool b =>
          obtain ⟨c, rest, hc, hcd⟩ := intChars_head n
          simp only [valChars] at h
          rw [hc] at h
          cases b with
          | true =>
              injection h with h1 _
              rw [h1] at hcd
              rcases hcd with h2 | h2 <;> exact absurd h2 (by decide)
          | false =>
              injection h with h1 _
              rw [h1] at hcd
              rcases hcd with h2 | h2 <;> exact absurd h2 (by decide)
      | null =>
          obtain ⟨c, rest, hc, hcd⟩ := intChars_head n
          simp only [valChars] at h
          rw [hc] at h
          injection h with h1 _
          rw [h1] at hcd
          rcases hcd with h2 | h2 <;> exact absurd h2 (by decide)
  | jbool b =>
      cases w with
      | str t => exact (hstr t (.jbool b) h.symm).symm
      | num m =>
          obtain ⟨c, rest, hc, hcd⟩ := intChars_head m
          simp only [valChars] at h
          rw [hc] at h
          cases b with
          | true =>
              injection h with h1 _
              rw [← h1] at hcd
              rcases hcd with h2 | h2 <;> exact absurd h2 (by decide)
          | false =>
              injection h with h1 _
              rw [← h1] at hcd
              rcases hcd with h2 | h2 <;> exact absurd h2 (by decide)
      | jbool b2 =>
          cases b <;> cases b2 <;> first | rfl | (exact absurd h (by decide))
      | null => cases b <;> exact absurd h (by decide)
  | null =>
      cases w with
      | str t => exact (hstr t .null h.symm).symm
      | num m =>
          obtain ⟨c, rest, hc, hcd⟩ := intChars_head m
          simp only [valChars] at h
          rw [hc] at h
          injection h with h1 _
          rw [← h1] at hcd
          rcases hcd with h2 | h2 <;> exact absurd h2 (by decide)
      | jbool b2 => cases b2 <;> exact absurd h (by decide)
      | null => rfl

/-! ### Row-hash lemmas (towards C4): sorting by key -/

theorem charListLe_cons_iff {a b : Char} {as bs : List Char} :
    charListLe (a :: as) (b :: bs) = true ↔
      a.toNat < b.toNat ∨ (a.toNat = b.toNat ∧ charListLe as bs = true) := by
  rw [charListLe]
  split_ifs with h1 h2
  · simp
    omega
  · simp
    omega
  · constructor
    · intro h
      exact Or.inr ⟨by omega, h⟩
    · rintro (h | h)
      · omega
      · exact h.2

theorem charListLe_total : ∀ x y : List Char,
    charListLe x y = true ∨ charListLe y x = true := by
  intro x
  induction x with
  | nil => intro y; exact Or.inl rfl
  | cons a as ih =>
      intro y
      cases y with
      | nil => exact Or.inr rfl
      | cons b bs =>
          rcases Nat.lt_trichotomy a.toNat b.toNat with h | h | h
          · exact Or.inl (charListLe_cons_iff.2 (Or.inl h))
          · rcases ih bs with h2 | h2
            · exact Or.inl (charListLe_cons_iff.2 (Or.inr ⟨h, h2⟩))
            · exact Or.inr (charListLe_cons_iff.2 (Or.inr ⟨h.symm, h2⟩))
          · exact Or.inr (charListLe_cons_iff.2 (Or.inl h))

theorem charListLe_antisymm : ∀ {x y : List Char},
    charListLe x y = true → charListLe y x = true → x = y := by
  intro x
  induction x with
  | nil =>
      intro y h1 h2
      cases y with
      | nil => rfl
      | cons b bs => exact absurd h2 (by rw [charListLe]; simp)
  | cons a as ih =>
      intro y h1 h2
      cases y with
      | nil => exact absurd h1 (by rw [charListLe]; simp)
      | cons b bs =>
          rcases charListLe_cons_iff.1 h1 with h | h <;>
            rcases charListLe_cons_iff.1 h2 with h3 | h3
          · omega
          · omega
          · omega
          · rw [charToNat_inj h.1, ih h.2 h3.2]

theorem charListLe_trans : ∀ {x y z : List Char},
    charListLe x y = true → charListLe y z = true → charListLe x z = true := by
  intro x
  induction x with
  | nil => intro y z _ _; rfl
  | cons a as ih =>
      intro y z h1 h2
      cases y with
      | nil => exact absurd h1 (by rw [charListLe]; simp)
      | cons b bs =>
          cases z with
          | nil => exact absurd h2 (by rw [charListLe]; simp)
          | cons c cs =>
              rcases charListLe_cons_iff.1 h1 with h | h <;>
                rcases charListLe_cons_iff.1 h2 with h3 | h3
              · exact charListLe_cons_iff.2 (Or.inl (by omega))
              · exact charListLe_cons_iff.2 (Or.inl (by omega))
              · exact charListLe_cons_iff.2 (Or.inl (by omega))
              · exact charListLe_cons_iff.2 (Or.inr ⟨by omega, ih h.2 h3.2⟩)

theorem keyLe_total (p q : String × JVal) : keyLe p q = true ∨ keyLe q p = true :=
  charListLe_total _ _

theorem insertPair_perm (p : String × JVal) :
    ∀ l, List.Perm (insertPair p l) (p :: l) := by
  intro l
  induction l with
  | nil => exact List.Perm.refl _
  | cons q qs ih =>
      rw [insertPair]
      by_cases h : keyLe p q
      · rw [if_pos h]
      · rw [if_neg h]
        exact (ih.cons q).trans (List.Perm.swap p q qs)

theorem sortPairs_perm : ∀ l, List.Perm (sortPairs l) l := by
  intro l
  induction l with
  | nil => exact List.Perm.refl _
  | cons p ps ih =>
      rw [sortPairs]
      exact (insertPair_perm p (sortPairs ps)).trans (ih.cons p)

theorem insertPair_sorted (p : String × JVal) :
    ∀ {l}, List.Pairwise (fun x y => keyLe x y = true) l →
      List.Pairwise (fun x y => keyLe x y = true) (insertPair p l) := by
  intro l
  induction l with
  | nil => intro _; simp [insertPair]
  | cons q qs ih =>
      intro h
      rcases List.pairwise_cons.1 h with ⟨hq, hqs⟩
      rw [insertPair]
      by_cases hle : keyLe p q
      · rw [if_pos hle]
        refine List.pairwise_cons.2 ⟨?_, h⟩
        intro b hb
        rcases List.mem_cons.1 hb with rfl | hb
        · exact hle
        · exact charListLe_trans hle (hq b hb)
      · rw [if_neg hle]
        refine List.pairwise_cons.2 ⟨?_, ih hqs⟩
        intro b hb
        rcases List.mem_cons.1 ((insertPair_perm p qs).mem_iff.1 hb) with hbp | hb
        · rw [hbp]
          rcases keyLe_total p q with h2 | h2
          · exact absurd h2 hle
          · exact h2
        · exact hq b hb

theorem sortPairs_sorted : ∀ l, List.Pairwise (fun x y => keyLe x y = true) (sortPairs l) := by
  intro l
  induction l with
  | nil => simp [sortPairs]
  | cons p ps ih =>
      rw [sortPairs]
      exact insertPair_sorted p ih

theorem keys_nodup_pairwise {l : List (String × JVal)}
    (h : (l.map Prod.fst).Nodup) : List.Pairwise (fun p q => p.1 ≠ q.1) l :=
  List.pairwise_map.1 h

theorem sorted_strict {l : List (String × JVal)}
    (hs : List.Pairwise (fun x y => keyLe x y = true) l)
    (hnd : (l.map Prod.fst).Nodup) : List.Pairwise keyStrictLe l :=
  (hs.and (keys_nodup_pairwise hnd)).imp (fun h => ⟨h.1, h.2⟩)

theorem keyStrictLe_antisymm {p q : String × JVal}
    (h1 : keyStrictLe p q) (h2 : keyStrictLe q p) : p = q :=
  absurd (String.ext (charListLe_antisymm h1.1 h2.1)) h1.2

instance : IsAntisymm (String × JVal) keyStrictLe :=
  ⟨fun _ _ h1 h2 => keyStrictLe_antisymm h1 h2⟩

theorem sortPairs_unique {l1 l2 : List (String × JVal)}
    (hperm : List.Perm l1 l2)
    (hnd : (l1.map Prod.fst).Nodup) : sortPairs l1 = sortPairs l2 := by
  have hnd2 : (l2.map Prod.fst).Nodup := (hperm.map Prod.fst).nodup hnd
  have hnds1 : ((sortPairs l1).map Prod.fst).Nodup :=
    ((sortPairs_perm l1).map Prod.fst).symm.nodup hnd
  have hnds2 : ((sortPairs l2).map Prod.fst).Nodup :=
    ((sortPairs_perm l2).map Prod.fst).symm.nodup hnd2
  exact List.eq_of_perm_of_sorted
    (((sortPairs_perm l1).trans hperm).trans (sortPairs_perm l2).symm)
    (sorted_strict (sortPairs_sorted l1) hnds1)
    (sorted_strict (sortPairs_sorted l2) hnds2)

/-! ### Row-hash lemmas (towards C4): serialization of a member list -/

theorem joinComma_cons_ne (a : String × JVal) (l : List (String × JVal))
    (h : l ≠ []) : joinComma (a :: l) = pairChars a ++ (',' :: joinComma l) := by
  cases l with
  | nil => exact absurd rfl h
  | cons q qs => rfl

theorem joinComma_mid_ne : ∀ (A : List (String × JVal)) (k : String)
    (v w : JVal) (B : List (String × JVal)), valChars v ≠ valChars w →
    joinComma (A ++ (k, v) :: B) ≠ joinComma (A ++ (k, w) :: B) := by
  intro A
  induction A with
  | nil =>
      intro k v w B hne
      cases B with
      | nil =>
          simp only [List.nil_append]
          intro h
          unfold joinComma pairChars at h
          have h2 := List.append_cancel_left h
          exact hne (List.tail_eq_of_cons_eq h2)
      | cons q qs =>
          simp only [List.nil_append]
          intro h
          rw [joinComma_cons_ne _ _ (List.cons_ne_nil q qs),
            joinComma_cons_ne _ _ (List.cons_ne_nil q qs)] at h
          have h2 := List.append_cancel_right h
          unfold pairChars at h2
          have h3 := List.append_cancel_left h2
          exact hne (List.tail_eq_of_cons_eq h3)
  | cons a A2 ih =>
      intro k v w B hne h
      rw [List.cons_append, List.cons_append,
        joinComma_cons_ne _ _ (by simp), joinComma_cons_ne _ _ (by simp)] at h
      have h2 := List.append_cancel_left h
      exact ih k v w B hne (List.tail_eq_of_cons_eq h2)

theorem pairwise_replace_mid {α : Type} {R : α → α → Prop} {A B : List α}
    {x y : α} (h1 : ∀ z, R x z → R y z) (h2 : ∀ z, R z x → R z y)
    (h : List.Pairwise R (A ++ x :: B)) : List.Pairwise R (A ++ y :: B) := by
  rw [List.pairwise_append] at h ⊢
  obtain ⟨hA, hxB, hcross⟩ := h
  rcases List.pairwise_cons.1 hxB with ⟨hxb, hB⟩
  refine ⟨hA, List.pairwise_cons.2 ⟨fun b hb => h1 b (hxb b hb), hB⟩, ?_⟩
  intro a ha b hb
  rcases List.mem_cons.1 hb with hby | hb
  · rw [hby]
    exact h2 a (hcross a ha x (List.mem_cons_self x B))
  · exact hcross a ha b (List.mem_cons_of_mem x hb)

theorem setValue_keys (l : List (String × JVal)) (k : String) (w : JVal) :
    (setValue l k w).map Prod.fst = l.map Prod.fst := by
  unfold setValue
  rw [List.map_map]
  refine List.map_congr_left ?_
  intro p _
  by_cases hp : p.1 = k
  · simp [hp]
  · simp [hp]

/-- C4: `computeRowHash` is invariant under field reordering — two records
with the same field/value pairs in different key orders hash equal — and is
sensitive to any value change: replacing the value stored under any field of
a record (keys pairwise distinct) with a different value changes the hash. -/
theorem computeRowHash_order_invariant_value_sensitive
    (r1 r2 : RowData) (hnd : (r1.map Prod.fst).Nodup)
    (hperm : List.Perm r1 r2) :
    computeRowHash r1 = computeRowHash r2 ∧
    (∀ (k : String) (v vNew : JVal), (k, v) ∈ r1 → vNew ≠ v →
      computeRowHash (setValue r1 k vNew) ≠ computeRowHash r1) := by
  constructor
  · unfold computeRowHash computeHash rowNormalized
    rw [sortPairs_unique hperm hnd]
  · intro k v vNew hmem hvne hcon
    unfold computeRowHash computeHash rowNormalized at hcon
    have hdata : '\x7b' :: (joinComma (sortPairs (setValue r1 k vNew)) ++ ['\x7d']) =
        '\x7b' :: (joinComma (sortPairs r1) ++ ['\x7d']) := congrArg String.data hcon
    have h1 : joinComma (sortPairs (setValue r1 k vNew)) = joinComma (sortPairs r1) :=
      List.append_cancel_right (List.tail_eq_of_cons_eq hdata)
    have hmemS : (k, v) ∈ sortPairs r1 := (sortPairs_perm r1).mem_iff.2 hmem
    obtain ⟨A, B, hAB⟩ := List.append_of_mem hmemS
    have hndS : ((sortPairs r1).map Prod.fst).Nodup :=
      ((sortPairs_perm r1).map Prod.fst).symm.nodup hnd
    have hndAB : ((A ++ (k, v) :: B).map Prod.fst).Nodup := by
      rw [← hAB]
      exact hndS
    rw [List.map_append, List.map_cons] at hndAB
    rw [List.nodup_append] at hndAB
    obtain ⟨hndA, hndkB, hdisj⟩ := hndAB
    have hkA : ∀ p ∈ A, p.1 ≠ k := by
      intro p hp hpk
      refine hdisj (List.mem_map.2 ⟨p, hp, rfl⟩) ?_
      rw [hpk]
      exact List.mem_cons_self _ _
    have hkB : ∀ p ∈ B, p.1 ≠ k := by
      intro p hp hpk
      rcases List.nodup_cons.1 hndkB with ⟨hknotB, _⟩
      exact hknotB (List.mem_map.2 ⟨p, hp, hpk⟩)
    have hmapg : setValue (sortPairs r1) k vNew = A ++ (k, vNew) :: B := by
      rw [hAB]
      unfold setValue
      rw [List.map_append, List.map_cons]
      have hA : A.map (fun p => if p.1 = k then (k, vNew) else p) = A := by
        rw [List.map_congr_left (fun p hp => if_neg (hkA p hp)), List.map_id']
      have hB : B.map (fun p => if p.1 = k then (k, vNew) else p) = B := by
        rw [List.map_congr_left (fun p hp => if_neg (hkB p hp)), List.map_id']
      rw [hA, hB, if_pos rfl]
    have hpm : List.Perm (sortPairs (setValue r1 k vNew)) (A ++ (k, vNew) :: B) := by
      refine (sortPairs_perm _).trans ?_
      have hp1 : List.Perm (setValue r1 k vNew) (setValue (sortPairs r1) k vNew) :=
        (sortPairs_perm r1).symm.map _
      rw [hmapg] at hp1
      exact hp1
    have hsorted1 : List.Pairwise (fun x y => keyLe x y = true) (A ++ (k, v) :: B) := by
      rw [← hAB]
      exact sortPairs_sorted r1
    have hsorted2 : List.Pairwise (fun x y => keyLe x y = true) (A ++ (k, vNew) :: B) :=
      pairwise_replace_mid (x := (k, v)) (fun _ hz => hz) (fun _ hz => hz) hsorted1
    have hndnew : ((A ++ (k, vNew) :: B).map Prod.fst).Nodup := by
      have heqkeys : (A ++ (k, vNew) :: B).map Prod.fst =
          (A ++ (k, v) :: B).map Prod.fst := by
        simp
      rw [heqkeys, ← hAB]
      exact hndS
    have hndsv : ((sortPairs (setValue r1 k vNew)).map Prod.fst).Nodup := by
      refine ((sortPairs_perm _).map Prod.fst).symm.nodup ?_
      rw [setValue_keys]
      exact hnd
    have hsv : sortPairs (setValue r1 k vNew) = A ++ (k, vNew) :: B :=
      List.eq_of_perm_of_sorted hpm
        (sorted_strict (sortPairs_sorted _) hndsv)
        (sorted_strict hsorted2 hndnew)
    rw [hsv, hAB] at h1
    exact joinComma_mid_ne A k vNew v B
      (fun hh => hvne (valChars_inj hh)) h1

/-- C4 witness: `hash [b ↦ 2, a ↦ 1] = hash [a ↦ 1, b ↦ 2]`, and changing
field `a` of the record changes the hash. -/
theorem computeRowHash_order_invariant_value_sensitive_witness :
    computeRowHash [("b", .num 2), ("a", .num 1)] =
      computeRowHash [("a", .num 1), ("b", .num 2)] ∧
    computeRowHash (setValue [("b", .num 2), ("a", .num 1)] "a" (.num 5)) ≠
      computeRowHash [("b", .num 2), ("a", .num 1)] := by
  have h := computeRowHash_order_invariant_value_sensitive
    [("b", .num 2), ("a", .num 1)] [("a", .num 1), ("b", .num 2)]
    (by decide) (List.Perm.swap _ _ _)
  exact ⟨h.1, h.2 "a" (.num 1) (.num 5) (by decide) (by decide)⟩

end Synced
